import Mathlib

/-!
Shallow embedding of the recipe web-app backend (`src/backend/main.py`):
the tag codec, the session store, the three freshness-cache regions, the
invalidation coordinator, and the save/delete operations against a modelled
remote object store.  Wall-clock time is modelled as natural-number seconds
(`datetime.min` becomes `0`); Python strings are modelled as `List Char`
(with `String` wrappers where the handlers pass strings around).
-/

/-- Python's whitespace test for ASCII characters, as used by `str.split()`,
`str.strip()`, `str.lstrip()` and the regex class `\s`:
space, tab, newline, carriage return, vertical tab, form feed. -/
def isSpace (c : Char) : Bool :=
  c.toNat == 32 || c.toNat == 9 || c.toNat == 10 || c.toNat == 13 ||
  c.toNat == 11 || c.toNat == 12

/-- Python `str.lower` restricted to the ASCII letters A-Z (the only case
shift that matters for this code base). -/
def pyLower (c : Char) : Char :=
  if 65 ≤ c.toNat ∧ c.toNat ≤ 90 then Char.ofNat (c.toNat + 32) else c

/-- Python `str.strip()`: drop whitespace from both ends. -/
def pyStrip (cs : List Char) : List Char :=
  ((cs.dropWhile isSpace).reverse.dropWhile isSpace).reverse

/-- Python `str.lstrip()`: drop leading whitespace. -/
def pyLstrip (cs : List Char) : List Char :=
  cs.dropWhile isSpace

/-- Worker for Python `str.split()` with no argument: split on maximal
whitespace runs, producing no empty tokens.  `acc` holds the reversed
characters of the token currently being read. -/
def pySplitAux : List Char → List Char → List (List Char)
  | [], acc => if acc.isEmpty then [] else [acc.reverse]
  | c :: cs, acc =>
    if isSpace c then
      if acc.isEmpty then pySplitAux cs [] else acc.reverse :: pySplitAux cs []
    else
      pySplitAux cs (c :: acc)

/-- Python `str.split()` with no argument. -/
def pySplit (cs : List Char) : List (List Char) :=
  pySplitAux cs []

/-- Worker for Python `list(dict.fromkeys(tags))`: keep the first occurrence
of each element, in order; `seen` records elements already emitted. -/
def pyDedupAux {α : Type} [DecidableEq α] : List α → List α → List α
  | [], _ => []
  | x :: xs, seen =>
    if x ∈ seen then pyDedupAux xs seen else x :: pyDedupAux xs (x :: seen)

/-- Python `list(dict.fromkeys(tags))`: order-preserving deduplication. -/
def pyDedup {α : Type} [DecidableEq α] (l : List α) : List α :=
  pyDedupAux l []

/-- `normalize_tags` (main.py lines 84-89): replace commas by spaces, split
on whitespace, strip + lowercase each token, drop empties, dedup keeping
first-seen order. -/
def normalize_tags (tag_string : List Char) : List (List Char) :=
  if tag_string = [] then []
  else
    let cleaned := tag_string.map (fun c => if c = ',' then ' ' else c)
    let tags :=
      ((pySplit cleaned).filter (fun t => ¬ (pyStrip t).isEmpty)).map
        (fun t => (pyStrip t).map pyLower)
    pyDedup tags

/-- The five characters of the literal `Tags:` that both regexes anchor on. -/
def tagsKey : List Char := ['T', 'a', 'g', 's', ':']

/-- One attempt of the tail `\s*(.+)$` of the pattern
`^Tags:\s*(.+)$` (main.py line 92) at the text `r` that follows a
line-start `Tags:`.  Python regex semantics: `\s*` is greedy (and may cross
newlines), `.` matches any character except `\n`, `$` matches before a
newline or at the end (MULTILINE).  So the engine first skips the maximal
whitespace run; if a character remains it captures up to the end of that
line, otherwise it backtracks to the last whitespace character that is not
a newline (everything after it is newlines, so the capture is that single
character); if `r` consists only of newlines the attempt fails. -/
def tagsRestMatch (r : List Char) : Option (List Char) :=
  let rest := r.dropWhile isSpace
  if rest.isEmpty then
    match (r.filter (fun c => c != '\n')).getLast? with
    | some c => some [c]
    | none => none
  else
    some (rest.takeWhile (fun c => c != '\n'))

/-- The scan of `re.search(r"^Tags:\s*(.+)$", md, re.MULTILINE)`: try every
position in left-to-right order; a match can only start at a line start
(`atStart` tracks that) with the literal `Tags:`; the first successful
attempt wins and its capture group is returned. -/
def searchTagsAux : Bool → List Char → Option (List Char)
  | _, [] => none
  | atStart, c :: rest =>
    if atStart ∧ (c :: rest).take 5 = tagsKey then
      match tagsRestMatch ((c :: rest).drop 5) with
      | some g => some g
      | none => searchTagsAux (c = '\n') rest
    else
      searchTagsAux (c = '\n') rest

/-- `extract_tags` (main.py lines 91-95): search for the first `Tags:` line
and normalize its captured remainder; empty list when there is no match. -/
def extract_tags (markdown : List Char) : List (List Char) :=
  match searchTagsAux true markdown with
  | none => []
  | some g => normalize_tags g

/-- Scanner state for the substitution `re.sub(r"^Tags:.*\n+", "", md,
flags=re.MULTILINE)` (main.py line 98): `scan b` is the ordinary left-to-right
scan (`b`: the current position is a line start), `line` is inside a matched
`Tags:` line consuming the rest of the line (`.*`), `nl` is consuming the
greedy newline run (`\n+`) that terminates a match. -/
inductive TMode : Type
  | scan (atStart : Bool)
  | line
  | nl

/-- The substitution scan itself.  A match starts only at a line start with
the literal `Tags:` and needs at least one newline somewhere after it (the
`.*` cannot cross a newline, so `\n+` fails exactly when no newline follows);
matches are non-overlapping and scanning resumes right after the consumed
newline run, which is again a line start. -/
def subTagsM : TMode → List Char → List Char
  | _, [] => []
  | .scan atStart, c :: rest =>
    if atStart ∧ (c :: rest).take 5 = tagsKey ∧
        ((c :: rest).drop 5).any (fun x => x == '\n') then
      subTagsM .line rest
    else
      c :: subTagsM (.scan (c = '\n')) rest
  | .line, c :: rest =>
    if c = '\n' then subTagsM .nl rest else subTagsM .line rest
  | .nl, c :: rest =>
    if c = '\n' then subTagsM .nl rest
    else if (c :: rest).take 5 = tagsKey ∧
        ((c :: rest).drop 5).any (fun x => x == '\n') then
      subTagsM .line rest
    else
      c :: subTagsM (.scan (c = '\n')) rest

/-- The full substitution pass of `replace_tags`, starting at a line start. -/
def subTags (cs : List Char) : List Char :=
  subTagsM (.scan true) cs

/-- Python `" ".join(tags)`. -/
def joinSpace : List (List Char) → List Char
  | [] => []
  | [t] => t
  | t :: ts => t ++ ' ' :: joinSpace ts

/-- `replace_tags` (main.py lines 97-102): delete the matching `Tags:` lines,
then either return the remainder left-stripped (no tags) or prepend
`Tags: <space-joined tags>` plus a blank line. -/
def replace_tags (markdown : List Char) (new_tags : List (List Char)) : List Char :=
  let stripped := subTags markdown
  if new_tags = [] then pyLstrip stripped
  else (tagsKey ++ ' ' :: joinSpace new_tags ++ ['\n', '\n']) ++ pyLstrip stripped

/-- Does the text contain, at a line start (`atStart` says whether the
current position is one), a `Tags:` line terminated by a newline — that is,
a line the substitution pattern `^Tags:.*\n+` would still match? -/
def containsMatch : Bool → List Char → Bool
  | _, [] => false
  | atStart, c :: rest =>
    (atStart && ((c :: rest).take 5 == tagsKey) &&
      ((c :: rest).drop 5).any (fun x => x == '\n')) ||
    containsMatch (c == '\n') rest

/-- Python `original_name.strip()` on a `String`. -/
def pyStripS (s : String) : String :=
  ⟨pyStrip s.toList⟩

/-- Prefix test on strings, by character list. -/
def listStarts : List Char → List Char → Bool
  | [], _ => true
  | _ :: _, [] => false
  | a :: as, b :: bs => a == b && listStarts as bs

/-- `p.startswith(q)` in Python becomes `strStarts q p`. -/
def strStarts (p s : String) : Bool :=
  listStarts p.toList s.toList

/-- The session store `sessions = {}` (main.py line 39): token to expiry. -/
abbrev Sessions := List (String × Nat)

/-- Dictionary lookup on an association list (first occurrence). -/
def odFind? {V : Type} (k : String) (l : List (String × V)) : Option V :=
  (l.find? (fun kv => kv.1 == k)).map (fun kv => kv.2)

/-- Dictionary `del`/`pop(k, None)`: remove the entry for `k`. -/
def odErase {V : Type} (k : String) (l : List (String × V)) : List (String × V) :=
  l.eraseP (fun kv => kv.1 == k)

/-- Dictionary assignment `d[k] = v`: replace the entry in place when the key
is present (an `OrderedDict` keeps its position), append otherwise. -/
def odAssign {V : Type} (k : String) (v : V) : List (String × V) → List (String × V)
  | [] => [(k, v)]
  | (a, w) :: rest => if a == k then (k, v) :: rest else (a, w) :: odAssign k v rest

/-- `OrderedDict.move_to_end(k)`: move the entry for `k` to the back. -/
def odMoveToEnd {V : Type} (k : String) (l : List (String × V)) : List (String × V) :=
  match l.find? (fun kv => kv.1 == k) with
  | some kv => l.eraseP (fun kv => kv.1 == k) ++ [kv]
  | none => l

/-- `verify_session` (main.py lines 47-53): absent token fails; an entry with
`expires < now` is deleted and fails; otherwise the call succeeds and leaves
the store untouched. -/
def verify_session (token : String) (now : Nat) (st : Sessions) : Bool × Sessions :=
  match odFind? token st with
  | none => (false, st)
  | some expires =>
    if expires < now then (false, odErase token st) else (true, st)

/-- `RECIPES_ROOT` (main.py line 72). -/
def RECIPES_ROOT : String := "/recipes"

/-- `recipe_md_path` (main.py lines 78-79). -/
def recipe_md_path (name : String) : String :=
  RECIPES_ROOT ++ "/" ++ name ++ ".md"

/-- `recipe_folder` (main.py lines 81-82). -/
def recipe_folder (name : String) : String :=
  RECIPES_ROOT ++ "/" ++ name

/-- Cache TTLs and the LRU bound (main.py lines 108-111), in seconds. -/
def RECIPES_CACHE_TTL : Nat := 20

def RECIPE_MD_CACHE_TTL : Nat := 60

def PHOTO_CACHE_TTL : Nat := 900

def PHOTO_CACHE_MAX_ITEMS : Nat := 128

/-- The catalog value cached by `/api/recipes`: name, tags, cover. -/
abbrev Catalog := List (String × List String × Option String)

/-- `recipes_cache = {"value": None, "expires_at": datetime.min}`
(main.py line 113); `datetime.min` is modelled as time `0`. -/
structure RecipesCache where
  value : Option Catalog
  expires_at : Nat
deriving DecidableEq

/-- `recipe_md_cache: dict[str, tuple[str, datetime]]` (main.py line 114). -/
abbrev MdCache := List (String × (String × Nat))

/-- One entry of `photo_cache` (main.py lines 168-174); the byte payload is
modelled as a `String`. -/
structure PhotoEntry where
  content : String
  media_type : String
  etag : String
  expires_at : Nat
deriving DecidableEq

/-- `photo_cache: OrderedDict[str, dict]` (main.py line 115), front = least
recently used. -/
abbrev PhotoCache := List (String × PhotoEntry)

/-- `cache_fresh` (main.py lines 117-118). -/
def cache_fresh (now expires_at : Nat) : Bool :=
  decide (now < expires_at)

/-- `get_cached_recipes` (main.py lines 120-123). -/
def get_cached_recipes (now : Nat) (rc : RecipesCache) : Option Catalog :=
  match rc.value with
  | some v => if cache_fresh now rc.expires_at then some v else none
  | none => none

/-- `set_cached_recipes` (main.py lines 125-127). -/
def set_cached_recipes (now : Nat) (data : Catalog) (_rc : RecipesCache) : RecipesCache :=
  { value := some data, expires_at := now + RECIPES_CACHE_TTL }

/-- `clear_recipes_cache` (main.py lines 129-131). -/
def clear_recipes_cache (_rc : RecipesCache) : RecipesCache :=
  { value := none, expires_at := 0 }

/-- `get_cached_recipe_md` (main.py lines 133-141); returns the value read
and the store afterwards (a stale entry is popped). -/
def get_cached_recipe_md (now : Nat) (name : String) (m : MdCache) :
    Option String × MdCache :=
  match odFind? name m with
  | none => (none, m)
  | some (markdown, expires_at) =>
    if cache_fresh now expires_at then (some markdown, m)
    else (none, odErase name m)

/-- `set_cached_recipe_md` (main.py lines 143-144). -/
def set_cached_recipe_md (now : Nat) (name markdown : String) (m : MdCache) : MdCache :=
  odAssign name (markdown, now + RECIPE_MD_CACHE_TTL) m

/-- `clear_recipe_md_cache` (main.py lines 146-150). -/
def clear_recipe_md_cache (name : Option String) (m : MdCache) : MdCache :=
  match name with
  | none => []
  | some n => odErase n m

/-- `get_cached_photo` (main.py lines 158-166): a miss leaves the cache
alone, a stale hit pops the entry, a fresh hit moves it to the back. -/
def get_cached_photo (now : Nat) (path : String) (pc : PhotoCache) :
    Option PhotoEntry × PhotoCache :=
  match odFind? path pc with
  | none => (none, pc)
  | some entry =>
    if cache_fresh now entry.expires_at then (some entry, odMoveToEnd path pc)
    else (none, odErase path pc)

/-- The `while len(photo_cache) > PHOTO_CACHE_MAX_ITEMS: popitem(last=False)`
loop (main.py lines 176-177): pop from the front until within bound. -/
def evictPhotos : PhotoCache → PhotoCache
  | [] => []
  | kv :: rest =>
    if PHOTO_CACHE_MAX_ITEMS < (kv :: rest).length then evictPhotos rest
    else kv :: rest

/-- `set_cached_photo` (main.py lines 168-177): assign, move to the back,
evict from the front while over the bound. -/
def set_cached_photo (now : Nat) (path content media_type etag : String)
    (pc : PhotoCache) : PhotoCache :=
  evictPhotos (odMoveToEnd path (odAssign path
    { content := content, media_type := media_type, etag := etag,
      expires_at := now + PHOTO_CACHE_TTL } pc))

/-- `clear_photo_cache` (main.py lines 179-185): with a recipe, pop every
key that starts with `"/recipes/<recipe>/"`; with `None`, clear all. -/
def clear_photo_cache (recipe : Option String) (pc : PhotoCache) : PhotoCache :=
  match recipe with
  | none => []
  | some r =>
    ((pc.map Prod.fst).filter
        (fun k => strStarts (RECIPES_ROOT ++ "/" ++ r ++ "/") k)).foldl
      (fun acc k => odErase k acc) pc

/-- The in-memory cache state of the process: the three regions together. -/
structure Caches where
  recipes_cache : RecipesCache
  recipe_md_cache : MdCache
  photo_cache : PhotoCache
deriving DecidableEq

/-- `invalidate_for_recipe_change` (main.py lines 187-190). -/
def invalidate_for_recipe_change (name : Option String) (st : Caches) : Caches :=
  { recipes_cache := clear_recipes_cache st.recipes_cache,
    photo_cache := clear_photo_cache name st.photo_cache,
    recipe_md_cache := clear_recipe_md_cache name st.recipe_md_cache }

/-- Error kinds surfaced by the modelled remote object store: a missing
path, a destination collision, or a transient upstream fault. -/
inductive RErr : Type
  | notFound
  | conflict
  | upstream
deriving DecidableEq

/-- The remote object store: a path-addressed list of objects with their
contents (folders are entries with empty content). -/
abbrev Remote := List (String × String)

/-- Is `q` the path `p` itself or a path inside the folder `p`? -/
def underPath (p q : String) : Bool :=
  q == p || strStarts (p ++ "/") q

def remote_lookup (rm : Remote) (p : String) : Option String :=
  odFind? p rm

/-- `dbx.files_upload(..., mode=overwrite)`: replace or create the object. -/
def remote_upload (rm : Remote) (p content : String) : Remote :=
  odAssign p content rm

/-- `dbx.files_delete_v2(p)`: error when `p` is absent, else remove `p`
together with everything inside it. -/
def remote_delete (rm : Remote) (p : String) : Except RErr Remote :=
  if (remote_lookup rm p).isSome then
    .ok (rm.filter (fun kv => !(underPath p kv.1)))
  else .error .notFound

/-- `dbx.files_move_v2(src, dst)`: missing source or occupied destination is
an error; otherwise every path at or under `src` is re-rooted at `dst`. -/
def remote_move (rm : Remote) (src dst : String) : Except RErr Remote :=
  if ¬ rm.any (fun kv => underPath src kv.1) then .error .notFound
  else if rm.any (fun kv => underPath dst kv.1) then .error .conflict
  else
    .ok (rm.map (fun kv =>
      if kv.1 == src then (dst, kv.2)
      else if strStarts (src ++ "/") kv.1 then
        (dst ++ ⟨kv.1.toList.drop src.toList.length⟩, kv.2)
      else kv))

/-- `dbx.files_create_folder_v2(p)`: error when occupied, else add a folder
marker. -/
def remote_create_folder (rm : Remote) (p : String) : Except RErr Remote :=
  if rm.any (fun kv => underPath p kv.1) then .error .conflict
  else .ok (rm ++ [(p, "")])

/-- The remote calls a handler issues, in order (used to state frame
conditions such as "no move happened"). -/
inductive RCall : Type
  | move (src dst : String)
  | upload (path : String)
  | createFolder (path : String)
  | delete (path : String)
deriving DecidableEq

instance : DecidableEq (Except RErr Unit) := fun a b =>
  match a, b with
  | .ok (), .ok () => isTrue rfl
  | .error e, .error f =>
    match decEq e f with
    | isTrue h => isTrue (by rw [h])
    | isFalse h => isFalse (by intro hc; injection hc; contradiction)
  | .ok _, .error _ => isFalse (by intro hc; cases hc)
  | .error _, .ok _ => isFalse (by intro hc; cases hc)

/-- Outcome of `save_recipe`: the HTTP-level result, the cache state, the
remote state and the trace of remote calls attempted. -/
structure SaveOut where
  result : Except RErr Unit
  caches : Caches
  remote : Remote
  calls : List RCall
deriving DecidableEq

/-- `save_recipe` (main.py lines 279-330).  The two `dbx.files_upload` calls
are the only remote calls whose exceptions propagate (`files_move_v2`,
`files_create_folder_v2` and the cleanup `files_delete_v2` are wrapped in
`try/except`); transient faults of the two uploads are injected through
`mdUploadFault` / `photoUploadFault`.  A raised call leaves the state
accumulated so far and surfaces the error. -/
def save_recipe (now : Nat) (name markdown tags original_name : String)
    (photo : Option (String × String)) (mdUploadFault photoUploadFault : Bool)
    (st : Caches) (rm : Remote) : SaveOut :=
  let old_name := pyStripS original_name
  let mdPath := recipe_md_path name
  let isRename : Bool := old_name != "" && old_name != name
  let rm1 :=
    if isRename then
      match remote_move rm (recipe_folder old_name) (recipe_folder name) with
      | .ok rm' => rm'
      | .error _ => rm
    else rm
  let calls1 :=
    if isRename then [RCall.move (recipe_folder old_name) (recipe_folder name)]
    else ([] : List RCall)
  let tag_list := normalize_tags tags.toList
  let final_md : String := ⟨replace_tags markdown.toList tag_list⟩
  let finish := fun (rmF : Remote) (callsF : List RCall) =>
    let rmG :=
      if isRename then
        match remote_delete rmF (recipe_md_path old_name) with
        | .ok r => r
        | .error _ => rmF
      else rmF
    let callsG :=
      if isRename then callsF ++ [RCall.delete (recipe_md_path old_name)]
      else callsF
    let st1 :=
      if isRename then invalidate_for_recipe_change none st
      else invalidate_for_recipe_change (some name) st
    let st2 :=
      { st1 with
        recipe_md_cache := set_cached_recipe_md now name final_md st1.recipe_md_cache }
    ({ result := .ok (), caches := st2, remote := rmG, calls := callsG } : SaveOut)
  if mdUploadFault then
    { result := .error .upstream, caches := st, remote := rm1,
      calls := calls1 ++ [RCall.upload mdPath] }
  else
    let rm2 := remote_upload rm1 mdPath final_md
    let calls2 := calls1 ++ [RCall.upload mdPath]
    match photo with
    | none => finish rm2 calls2
    | some (filename, content) =>
      let rm3 :=
        match remote_create_folder rm2 (recipe_folder name) with
        | .ok r => r
        | .error _ => rm2
      let calls3 := calls2 ++ [RCall.createFolder (recipe_folder name)]
      let photoPath := recipe_folder name ++ "/" ++ filename
      if photoUploadFault then
        { result := .error .upstream, caches := st, remote := rm3,
          calls := calls3 ++ [RCall.upload photoPath] }
      else
        finish (remote_upload rm3 photoPath content) (calls3 ++ [RCall.upload photoPath])

/-- `delete_recipe` (main.py lines 332-341): delete the markdown object (an
error propagates), best-effort delete the photo folder, then invalidate the
caches for this recipe. -/
def delete_recipe (name : String) (st : Caches) (rm : Remote) :
    Except RErr Unit × Caches × Remote :=
  match remote_delete rm (recipe_md_path name) with
  | .error e => (.error e, st, rm)
  | .ok rm1 =>
    let rm2 :=
      match remote_delete rm1 (recipe_folder name) with
      | .ok r => r
      | .error _ => rm1
    (.ok (), invalidate_for_recipe_change (some name) st, rm2)

/-- One photo-cache operation of a client-visible access sequence. -/
inductive POp : Type
  | get (path : String)
  | set (path content media_type etag : String)
deriving DecidableEq

def applyPOp (now : Nat) (pc : PhotoCache) : POp → PhotoCache
  | .get p => (get_cached_photo now p pc).2
  | .set p c mt e => set_cached_photo now p c mt e pc

/-- Run a sequence of photo-cache operations, all at time `now`. -/
def applyPOps (now : Nat) (ops : List POp) (pc : PhotoCache) : PhotoCache :=
  ops.foldl (applyPOp now) pc

/-- The keys inserted by the `set` operations of a sequence, in order. -/
def setKeys (ops : List POp) : List String :=
  ops.filterMap (fun op => match op with
    | .set p _ _ _ => some p
    | .get _ => none)

/-- Modelled from the spec (§4.3): touching a key moves it to the
most-recently-used position of the access-ordered key list. -/
def specTouch (l : List String) (k : String) : List String :=
  l.eraseP (fun x => x == k) ++ [k]

/-- Modelled from the spec (§4.3): a `get` touches the key when present; a
`set` touches the key and then evicts least-recently-used keys while the
128-entry bound is exceeded. -/
def specLRUStep (l : List String) : POp → List String
  | .get p => if p ∈ l then specTouch l p else l
  | .set p _ _ _ =>
    let l1 := specTouch l p
    if PHOTO_CACHE_MAX_ITEMS < l1.length then
      l1.drop (l1.length - PHOTO_CACHE_MAX_ITEMS)
    else l1

/-- Modelled from the spec (§4.3): the most-recently-touched key list left
by an operation sequence, oldest first. -/
def specLRU (ops : List POp) : List String :=
  ops.foldl specLRUStep []

/-- A concrete distinct key for index `i` (a single character). -/
def c4key (i : Nat) : String :=
  ⟨[Char.ofNat (65 + i)]⟩

/-- A concrete sequence of 129 insertions with pairwise distinct keys. -/
def c4ops : List POp :=
  (List.range 129).map (fun i => POp.set (c4key i) "" "" "")

/-! ### Helper lemmas: association lists, prefix tests, eviction -/

theorem find?_odAssign {V : Type} (k : String) (v : V) (l : List (String × V)) :
    (odAssign k v l).find? (fun kv => kv.1 == k) = some (k, v) := by
  induction l with
  | nil => simp [odAssign]
  | cons kv rest ih =>
    obtain ⟨a, w⟩ := kv
    simp only [odAssign]
    by_cases h : a = k
    · subst h
      rw [if_pos (by simp)]
      rw [List.find?_cons_of_pos _ (by simp)]
    · rw [if_neg (by simpa using h)]
      rw [List.find?_cons_of_neg _ (by simpa using h)]
      exact ih

theorem odFind?_odAssign {V : Type} (k : String) (v : V) (l : List (String × V)) :
    odFind? k (odAssign k v l) = some v := by
  simp [odFind?, find?_odAssign]

theorem eraseP_odAssign {V : Type} (k : String) (v : V) (l : List (String × V)) :
    (odAssign k v l).eraseP (fun kv => kv.1 == k) =
      l.eraseP (fun kv => kv.1 == k) := by
  induction l with
  | nil => simp [odAssign]
  | cons kv rest ih =>
    obtain ⟨a, w⟩ := kv
    simp only [odAssign]
    by_cases h : a = k
    · subst h
      rw [if_pos (by simp)]
      rw [List.eraseP_cons_of_pos (by simp), List.eraseP_cons_of_pos (by simp)]
    · rw [if_neg (by simpa using h)]
      rw [List.eraseP_cons_of_neg (by simpa using h),
        List.eraseP_cons_of_neg (by simpa using h), ih]

theorem odMoveToEnd_odAssign {V : Type} (k : String) (v : V) (l : List (String × V)) :
    odMoveToEnd k (odAssign k v l) =
      l.eraseP (fun kv => kv.1 == k) ++ [(k, v)] := by
  unfold odMoveToEnd
  rw [find?_odAssign, eraseP_odAssign]

theorem mapFst_eraseP {V : Type} (k : String) (l : List (String × V)) :
    (l.eraseP (fun kv => kv.1 == k)).map Prod.fst =
      (l.map Prod.fst).eraseP (fun x => x == k) := by
  induction l with
  | nil => simp
  | cons kv rest ih =>
    by_cases h : kv.1 = k
    · rw [List.eraseP_cons_of_pos (by simpa using h)]
      rw [List.map_cons, List.eraseP_cons_of_pos (by simpa using h)]
    · rw [List.eraseP_cons_of_neg (by simpa using h), List.map_cons,
        List.map_cons, List.eraseP_cons_of_neg (by simpa using h), ih]

theorem not_mem_eraseP_self (k : String) (L : List String) (h : L.Nodup) :
    k ∉ L.eraseP (fun x => x == k) := by
  induction L with
  | nil => simp
  | cons a rest ih =>
    rw [List.nodup_cons] at h
    by_cases ha : a = k
    · subst ha
      rw [List.eraseP_cons_of_pos (by simp)]
      exact h.1
    · rw [List.eraseP_cons_of_neg (by simpa using ha)]
      intro hmem
      rcases List.mem_cons.mp hmem with h1 | h1
      · exact ha h1.symm
      · exact ih h.2 h1

theorem evictPhotos_eq_drop (pc : PhotoCache) :
    evictPhotos pc = pc.drop (pc.length - PHOTO_CACHE_MAX_ITEMS) := by
  induction pc with
  | nil => rfl
  | cons kv rest ih =>
    simp only [evictPhotos]
    by_cases h : PHOTO_CACHE_MAX_ITEMS < (kv :: rest).length
    · rw [if_pos h, ih]
      have h2 : (kv :: rest).length - PHOTO_CACHE_MAX_ITEMS =
          (rest.length - PHOTO_CACHE_MAX_ITEMS) + 1 := by
        simp only [List.length_cons] at h ⊢
        omega
      rw [h2, List.drop_succ_cons]
    · rw [if_neg h]
      have h2 : (kv :: rest).length - PHOTO_CACHE_MAX_ITEMS = 0 := by
        simp only [List.length_cons] at h ⊢
        omega
      rw [h2, List.drop_zero]

theorem set_cached_photo_eq (now : Nat) (p c mt e : String) (pc : PhotoCache) :
    set_cached_photo now p c mt e pc =
      (pc.eraseP (fun kv => kv.1 == p)).drop
          ((pc.eraseP (fun kv => kv.1 == p)).length + 1 - PHOTO_CACHE_MAX_ITEMS) ++
        [(p, ⟨c, mt, e, now + PHOTO_CACHE_TTL⟩)] := by
  unfold set_cached_photo
  rw [odMoveToEnd_odAssign, evictPhotos_eq_drop]
  have hlen : ((pc.eraseP (fun kv => kv.1 == p)) ++
      [(p, (⟨c, mt, e, now + PHOTO_CACHE_TTL⟩ : PhotoEntry))]).length =
      (pc.eraseP (fun kv => kv.1 == p)).length + 1 := by simp
  rw [hlen]
  have hle : (pc.eraseP (fun kv => kv.1 == p)).length + 1 - PHOTO_CACHE_MAX_ITEMS ≤
      (pc.eraseP (fun kv => kv.1 == p)).length := by
    unfold PHOTO_CACHE_MAX_ITEMS
    omega
  exact List.drop_append_of_le_length hle

theorem odFind?_append_right {V : Type} (k : String) (l1 l2 : List (String × V))
    (h : ∀ kv ∈ l1, kv.1 ≠ k) :
    odFind? k (l1 ++ l2) = odFind? k l2 := by
  unfold odFind?
  rw [List.find?_append]
  have h1 : l1.find? (fun kv => kv.1 == k) = none :=
    List.find?_eq_none.mpr (fun kv hkv => by simpa using h kv hkv)
  rw [h1]
  rfl

theorem get_set_photo (now t : Nat) (p c mt e : String) (pc : PhotoCache)
    (h : (pc.map Prod.fst).Nodup) :
    (get_cached_photo t p (set_cached_photo now p c mt e pc)).1 =
      if t < now + PHOTO_CACHE_TTL then
        some ⟨c, mt, e, now + PHOTO_CACHE_TTL⟩
      else none := by
  unfold get_cached_photo
  have hnotmem : p ∉ (pc.eraseP (fun kv => kv.1 == p)).map Prod.fst := by
    rw [mapFst_eraseP]
    exact not_mem_eraseP_self p _ h
  have hfind : odFind? p (set_cached_photo now p c mt e pc) =
      some ⟨c, mt, e, now + PHOTO_CACHE_TTL⟩ := by
    rw [set_cached_photo_eq]
    rw [odFind?_append_right]
    · simp [odFind?]
    · intro kv hkv hke
      apply hnotmem
      have hmem : kv ∈ pc.eraseP (fun kv => kv.1 == p) :=
        (List.drop_sublist _ _).mem hkv
      have hm2 : kv.1 ∈ (pc.eraseP (fun kv => kv.1 == p)).map Prod.fst :=
        List.mem_map_of_mem Prod.fst hmem
      rwa [hke] at hm2
  rw [hfind]
  by_cases hfresh : t < now + PHOTO_CACHE_TTL
  · rw [if_pos hfresh]
    have : cache_fresh t (now + PHOTO_CACHE_TTL) = true := by
      simp [cache_fresh, hfresh]
    simp [this]
  · rw [if_neg hfresh]
    have : cache_fresh t (now + PHOTO_CACHE_TTL) = false := by
      simp [cache_fresh]
      omega
    simp [this]

theorem get_set_md (now t : Nat) (name md : String) (m : MdCache) :
    (get_cached_recipe_md t name (set_cached_recipe_md now name md m)).1 =
      if t < now + RECIPE_MD_CACHE_TTL then some md else none := by
  unfold get_cached_recipe_md set_cached_recipe_md
  rw [odFind?_odAssign]
  by_cases hfresh : t < now + RECIPE_MD_CACHE_TTL
  · rw [if_pos hfresh]
    have : cache_fresh t (now + RECIPE_MD_CACHE_TTL) = true := by
      simp [cache_fresh, hfresh]
    simp [this]
  · rw [if_neg hfresh]
    have : cache_fresh t (now + RECIPE_MD_CACHE_TTL) = false := by
      simp [cache_fresh]
      omega
    simp [this]

theorem get_set_recipes (now t : Nat) (v : Catalog) (rc : RecipesCache) :
    get_cached_recipes t (set_cached_recipes now v rc) =
      if t < now + RECIPES_CACHE_TTL then some v else none := by
  unfold get_cached_recipes set_cached_recipes
  by_cases hfresh : t < now + RECIPES_CACHE_TTL
  · rw [if_pos hfresh]
    have : cache_fresh t (now + RECIPES_CACHE_TTL) = true := by
      simp [cache_fresh, hfresh]
    simp [this]
  · rw [if_neg hfresh]
    have : cache_fresh t (now + RECIPES_CACHE_TTL) = false := by
      simp [cache_fresh]
      omega
    simp [this]

/-- C5: for each cache region (catalog TTL 20s, document-text TTL 60s,
content TTL 900s), a value stored at time `now` is returned unchanged by a
read at any time `t < now + TTL`, and a read at any `t ≥ now + TTL` finds
the entry absent. -/
theorem c5_cache_freshness (now t : Nat) (v : Catalog) (rc : RecipesCache)
    (name md : String) (m : MdCache) (p c mt e : String) (pc : PhotoCache)
    (h : (pc.map Prod.fst).Nodup) :
    (get_cached_recipes t (set_cached_recipes now v rc) =
        if t < now + RECIPES_CACHE_TTL then some v else none)
    ∧ ((get_cached_recipe_md t name (set_cached_recipe_md now name md m)).1 =
        if t < now + RECIPE_MD_CACHE_TTL then some md else none)
    ∧ ((get_cached_photo t p (set_cached_photo now p c mt e pc)).1 =
        if t < now + PHOTO_CACHE_TTL then
          some ⟨c, mt, e, now + PHOTO_CACHE_TTL⟩
        else none) :=
  ⟨get_set_recipes now t v rc, get_set_md now t name md m,
    get_set_photo now t p c mt e pc h⟩

/-- Witness for C5 at concrete inputs (fresh read at `t = 10`,
store at `now = 0`, empty photo cache). -/
theorem c5_cache_freshness_witness :
    (([] : PhotoCache).map Prod.fst).Nodup ∧
    ((get_cached_recipes 10 (set_cached_recipes 0 [] ⟨none, 0⟩) =
        if 10 < 0 + RECIPES_CACHE_TTL then some [] else none)
    ∧ ((get_cached_recipe_md 10 "a" (set_cached_recipe_md 0 "a" "m" [])).1 =
        if 10 < 0 + RECIPE_MD_CACHE_TTL then some "m" else none)
    ∧ ((get_cached_photo 10 "p" (set_cached_photo 0 "p" "c" "mt" "e" [])).1 =
        if 10 < 0 + PHOTO_CACHE_TTL then
          some ⟨"c", "mt", "e", 0 + PHOTO_CACHE_TTL⟩
        else none)) :=
  ⟨by decide, c5_cache_freshness 0 10 [] ⟨none, 0⟩ "a" "m" [] "p" "c" "mt" "e" []
    (by decide)⟩

/-- C6 counterexample: the claim says `verifySession` returns `true` exactly
when the recorded expiry is strictly in the future; but at the boundary
(expiry equal to the check time, which is not strictly in the future) the
code returns `true` and keeps the entry. -/
theorem c6_counterexample :
    (verify_session "t" 5 [("t", 5)]).1 = true ∧ ¬ ((5 : Nat) < 5) := by
  exact ⟨by decide, by omega⟩

/-- C6 amended: `verify_session` returns `true` exactly when the token is
present with expiry at or after the check time (`now ≤ e`, not `now < e`);
for a present entry with expiry strictly before `now` it returns `false` and
removes the entry; for an expiry at or after `now` it returns `true` leaving
the store untouched; for an absent token it returns `false` leaving the
store untouched. -/
theorem c6_session_validity (token : String) (now : Nat) (st : Sessions) :
    ((verify_session token now st).1 = true ↔
      ∃ e, odFind? token st = some e ∧ now ≤ e)
    ∧ (odFind? token st = none → verify_session token now st = (false, st))
    ∧ (∀ e, odFind? token st = some e → e < now →
        verify_session token now st = (false, odErase token st))
    ∧ (∀ e, odFind? token st = some e → now ≤ e →
        verify_session token now st = (true, st)) := by
  unfold verify_session
  cases hf : odFind? token st with
  | none => simp [hf]
  | some e =>
    dsimp only
    by_cases hlt : e < now
    · rw [if_pos hlt]
      refine ⟨?_, ?_, ?_, ?_⟩
      · simp only [hf]
        constructor
        · intro hc
          cases hc
        · rintro ⟨e2, he2, hle⟩
          injection he2 with he2
          omega
      · intro hc
        cases hc
      · intro e2 he2 _
        injection he2 with he2
        subst he2
        rfl
      · intro e2 he2 hle
        injection he2 with he2
        omega
    · rw [if_neg hlt]
      refine ⟨?_, ?_, ?_, ?_⟩
      · simp only [hf]
        constructor
        · intro _
          exact ⟨e, rfl, by omega⟩
        · intro _
          trivial
      · intro hc
        cases hc
      · intro e2 he2 hlt2
        injection he2 with he2
        omega
      · intro e2 he2 _
        rfl

/-- Witness for C6 amended: a token expiring strictly in the past is
rejected and purged. -/
theorem c6_session_validity_witness :
    odFind? "t" ([("t", 3)] : Sessions) = some 3 ∧
    verify_session "t" 7 [("t", 3)] = (false, odErase "t" [("t", 3)]) :=
  ⟨by decide, (c6_session_validity "t" 7 [("t", 3)]).2.2.1 3 (by decide) (by decide)⟩

theorem listStarts_iff (p s : List Char) :
    listStarts p s = true ↔ ∃ t, s = p ++ t := by
  induction p generalizing s with
  | nil => simp [listStarts]
  | cons a as ih =>
    cases s with
    | nil => simp [listStarts]
    | cons b bs =>
      simp only [listStarts, Bool.and_eq_true, beq_iff_eq]
      constructor
      · rintro ⟨rfl, h2⟩
        obtain ⟨t, rfl⟩ := (ih bs).mp h2
        exact ⟨t, rfl⟩
      · rintro ⟨t, ht⟩
        injection ht with h1 h2
        exact ⟨h1.symm, (ih bs).mpr ⟨t, h2⟩⟩

theorem listStarts_append_left (a b c : List Char) :
    listStarts (a ++ b) (a ++ c) = listStarts b c := by
  induction a with
  | nil => rfl
  | cons x xs ih => simp [listStarts, ih]

theorem listStarts_le_length (p s : List Char) (h : listStarts p s = true) :
    p.length ≤ s.length := by
  obtain ⟨t, rfl⟩ := (listStarts_iff p s).mp h
  simp

theorem odErase_eq_filter {V : Type} (k : String) (l : List (String × V))
    (h : (l.map Prod.fst).Nodup) :
    odErase k l = l.filter (fun kv => kv.1 != k) := by
  induction l with
  | nil => rfl
  | cons kv rest ih =>
    rw [List.map_cons, List.nodup_cons] at h
    by_cases hk : kv.1 = k
    · rw [show odErase k (kv :: rest) = rest from
        List.eraseP_cons_of_pos (by simpa using hk)]
      rw [List.filter_cons_of_neg (by simp [hk])]
      symm
      rw [List.filter_eq_self]
      intro a ha
      have hmem : a.1 ∈ rest.map Prod.fst := List.mem_map_of_mem Prod.fst ha
      simp only [bne_iff_ne]
      intro hak
      rw [hak, ← hk] at hmem
      exact h.1 hmem
    · rw [show odErase k (kv :: rest) = kv :: odErase k rest from
        List.eraseP_cons_of_neg (by simpa using hk)]
      rw [List.filter_cons_of_pos (by simpa using hk)]
      rw [ih h.2]

theorem foldl_odErase_eq_filter {V : Type} (ks : List String)
    (l : List (String × V)) (h : (l.map Prod.fst).Nodup) :
    ks.foldl (fun acc k => odErase k acc) l =
      l.filter (fun kv => !(ks.contains kv.1)) := by
  induction ks generalizing l with
  | nil => simp
  | cons k ks ih =>
    rw [List.foldl_cons]
    have hnodup : ((l.filter (fun kv => kv.1 != k)).map Prod.fst).Nodup :=
      ((List.filter_sublist l).map Prod.fst).nodup h
    rw [show odErase k l = l.filter (fun kv => kv.1 != k) from
      odErase_eq_filter k l h]
    rw [ih _ hnodup, List.filter_filter]
    apply List.filter_congr
    intro kv _
    rw [List.contains_cons, Bool.not_or, Bool.and_comm]
    rfl

theorem odFind?_filter_keep {V : Type} (k : String) (q : String × V → Bool)
    (l : List (String × V)) (h : ∀ v, q (k, v) = true) :
    odFind? k (l.filter q) = odFind? k l := by
  induction l with
  | nil => rfl
  | cons kv rest ih =>
    by_cases hk : kv.1 = k
    · obtain ⟨a, v⟩ := kv
      simp only at hk
      subst hk
      rw [List.filter_cons_of_pos (h v)]
      unfold odFind?
      rw [List.find?_cons_of_pos _ (by simp), List.find?_cons_of_pos _ (by simp)]
    · by_cases hq : q kv = true
      · rw [List.filter_cons_of_pos hq]
        unfold odFind?
        rw [List.find?_cons_of_neg _ (by simpa using hk),
          List.find?_cons_of_neg _ (by simpa using hk)]
        exact ih
      · rw [List.filter_cons_of_neg hq]
        rw [show odFind? k (kv :: rest) =
            (List.find? (fun kv => kv.1 == k) rest).map (fun kv => kv.2) from by
          unfold odFind?
          rw [List.find?_cons_of_neg _ (by simpa using hk)]]
        exact ih

theorem clear_photo_cache_eq_filter (r : String) (pc : PhotoCache)
    (h : (pc.map Prod.fst).Nodup) :
    clear_photo_cache (some r) pc =
      pc.filter (fun kv => !(strStarts (RECIPES_ROOT ++ "/" ++ r ++ "/") kv.1)) := by
  unfold clear_photo_cache
  dsimp only
  rw [foldl_odErase_eq_filter _ _ h]
  apply List.filter_congr
  intro kv hkv
  cases hs : strStarts (RECIPES_ROOT ++ "/" ++ r ++ "/") kv.1 with
  | true =>
    have hmem : kv.1 ∈ (pc.map Prod.fst).filter
        (fun k => strStarts (RECIPES_ROOT ++ "/" ++ r ++ "/") k) := by
      rw [List.mem_filter]
      exact ⟨List.mem_map_of_mem Prod.fst hkv, hs⟩
    have : ((pc.map Prod.fst).filter
        (fun k => strStarts (RECIPES_ROOT ++ "/" ++ r ++ "/") k)).contains kv.1 = true := by
      simpa using hmem
    rw [this]
  | false =>
    have hnomem : kv.1 ∉ (pc.map Prod.fst).filter
        (fun k => strStarts (RECIPES_ROOT ++ "/" ++ r ++ "/") k) := by
      rw [List.mem_filter]
      rintro ⟨-, hx⟩
      rw [hs] at hx
      cases hx
    have : ((pc.map Prod.fst).filter
        (fun k => strStarts (RECIPES_ROOT ++ "/" ++ r ++ "/") k)).contains kv.1 = false := by
      simpa using hnomem
    rw [this]

theorem strStarts_of_ext_false (r ext f : String) (hne : ext ≠ "")
    (hsl : '/' ∉ ext.toList) :
    strStarts (RECIPES_ROOT ++ "/" ++ r ++ "/")
      (RECIPES_ROOT ++ "/" ++ (r ++ ext) ++ "/" ++ f) = false := by
  have hext : ext.toList ≠ [] := by
    intro hc
    apply hne
    cases ext with
    | mk data =>
      simp [String.toList] at hc
      simp [hc]
  unfold strStarts
  have h1 : (RECIPES_ROOT ++ "/" ++ r ++ "/").toList =
      (RECIPES_ROOT ++ "/" ++ r).toList ++ ['/'] := by
    simp [String.toList, String.data_append]
  have h2 : (RECIPES_ROOT ++ "/" ++ (r ++ ext) ++ "/" ++ f).toList =
      (RECIPES_ROOT ++ "/" ++ r).toList ++ (ext.toList ++ ['/'] ++ f.toList) := by
    simp [String.toList, String.data_append]
  rw [h1, h2, listStarts_append_left]
  cases hE : ext.toList with
  | nil => exact absurd hE hext
  | cons c cs =>
    have hc : c ≠ '/' := by
      intro hcc
      apply hsl
      rw [hE, hcc]
      exact List.mem_cons_self _ _
    simp [listStarts]
    intro hcc
    exact absurd hcc.symm hc

/-- C10: clearing the content cache for recipe `r` removes exactly the
entries whose key starts with `"/recipes/<r>/"` (trailing slash included);
every entry of any other recipe is left unchanged, in particular entries of
a recipe whose name extends `r` (`r ++ ext` for a nonempty slash-free `ext`)
are untouched. -/
theorem c10_clear_photo_prefix_scope (r : String) (pc : PhotoCache)
    (h : (pc.map Prod.fst).Nodup) :
    (clear_photo_cache (some r) pc =
      pc.filter (fun kv => !(strStarts (RECIPES_ROOT ++ "/" ++ r ++ "/") kv.1)))
    ∧ (∀ ext f, ext ≠ "" → '/' ∉ ext.toList →
        odFind? (RECIPES_ROOT ++ "/" ++ (r ++ ext) ++ "/" ++ f)
            (clear_photo_cache (some r) pc) =
          odFind? (RECIPES_ROOT ++ "/" ++ (r ++ ext) ++ "/" ++ f) pc) := by
  constructor
  · exact clear_photo_cache_eq_filter r pc h
  · intro ext f hne hsl
    rw [clear_photo_cache_eq_filter r pc h]
    apply odFind?_filter_keep
    intro v
    rw [strStarts_of_ext_false r ext f hne hsl]
    rfl

/-- Witness for C10: clearing recipe `"r"` drops its entry and keeps the
entry of recipe `"rx"`. -/
theorem c10_clear_photo_prefix_scope_witness :
    (([("/recipes/r/a", ⟨"c", "m", "e", 9⟩),
       ("/recipes/rx/b", ⟨"c", "m", "e", 9⟩)] : PhotoCache).map Prod.fst).Nodup ∧
    ("x" : String) ≠ "" ∧ '/' ∉ ("x" : String).toList ∧
    odFind? (RECIPES_ROOT ++ "/" ++ ("r" ++ "x") ++ "/" ++ "b")
        (clear_photo_cache (some "r")
          [("/recipes/r/a", ⟨"c", "m", "e", 9⟩),
           ("/recipes/rx/b", ⟨"c", "m", "e", 9⟩)]) =
      odFind? (RECIPES_ROOT ++ "/" ++ ("r" ++ "x") ++ "/" ++ "b")
        [("/recipes/r/a", ⟨"c", "m", "e", 9⟩),
         ("/recipes/rx/b", ⟨"c", "m", "e", 9⟩)] :=
  ⟨by decide, by decide, by decide,
    (c10_clear_photo_prefix_scope "r"
      [("/recipes/r/a", ⟨"c", "m", "e", 9⟩),
       ("/recipes/rx/b", ⟨"c", "m", "e", 9⟩)] (by decide)).2 "x" "b"
      (by decide) (by decide)⟩

/-! ### LRU refinement (claim C4) -/

theorem odFind?_some_mem {V : Type} {k : String} {l : List (String × V)} {v : V}
    (h : odFind? k l = some v) : (k, v) ∈ l := by
  unfold odFind? at h
  cases hf : l.find? (fun kv => kv.1 == k) with
  | none => rw [hf] at h; cases h
  | some kv =>
    rw [hf] at h
    have h1 : kv.1 = k := by simpa using List.find?_some hf
    have h2 : kv ∈ l := List.mem_of_find?_eq_some hf
    have h3 : kv.2 = v := by simpa using h
    have h4 : kv = (k, v) := by
      cases kv
      simp only at h1 h3
      rw [h1, h3]
    rwa [h4] at h2

theorem odFind?_none_not_mem {V : Type} {k : String} {l : List (String × V)}
    (h : odFind? k l = none) : k ∉ l.map Prod.fst := by
  unfold odFind? at h
  cases hf : l.find? (fun kv => kv.1 == k) with
  | some kv => rw [hf] at h; cases h
  | none =>
    intro hmem
    obtain ⟨kv, hkv, hfst⟩ := List.mem_map.mp hmem
    have hne := List.find?_eq_none.mp hf kv hkv
    rw [hfst] at hne
    simp at hne

theorem nodup_append_singleton {a : String} {l : List String}
    (h : l.Nodup) (hna : a ∉ l) : (l ++ [a]).Nodup := by
  rw [List.nodup_append]
  refine ⟨h, List.nodup_singleton a, ?_⟩
  intro x hx hxa
  rw [List.mem_singleton] at hxa
  subst hxa
  exact hna hx

theorem odMoveToEnd_of_find? {V : Type} {k : String} {l : List (String × V)}
    {kv : String × V} (h : l.find? (fun kv => kv.1 == k) = some kv) :
    odMoveToEnd k l = l.eraseP (fun kv => kv.1 == k) ++ [kv] := by
  unfold odMoveToEnd
  rw [h]

theorem get_cached_photo_miss (now : Nat) (p : String) (pc : PhotoCache)
    (hf : odFind? p pc = none) :
    get_cached_photo now p pc = (none, pc) := by
  unfold get_cached_photo
  rw [hf]

theorem get_cached_photo_hit (now : Nat) (p : String) (pc : PhotoCache)
    (entry : PhotoEntry) (hf : odFind? p pc = some entry)
    (hfresh : cache_fresh now entry.expires_at = true) :
    get_cached_photo now p pc = (some entry, odMoveToEnd p pc) := by
  unfold get_cached_photo
  rw [hf]
  dsimp only
  rw [hfresh]
  simp

theorem applyPOp_step (now : Nat) (pc : PhotoCache) (op : POp)
    (hnd : (pc.map Prod.fst).Nodup)
    (hexp : ∀ kv ∈ pc, kv.2.expires_at = now + PHOTO_CACHE_TTL) :
    (applyPOp now pc op).map Prod.fst = specLRUStep (pc.map Prod.fst) op
    ∧ ((applyPOp now pc op).map Prod.fst).Nodup
    ∧ (∀ kv ∈ applyPOp now pc op, kv.2.expires_at = now + PHOTO_CACHE_TTL) := by
  cases op with
  | get p =>
    simp only [applyPOp]
    cases hf : odFind? p pc with
    | none =>
      have hnm : p ∉ pc.map Prod.fst := odFind?_none_not_mem hf
      rw [get_cached_photo_miss now p pc hf]
      simp only [specLRUStep]
      rw [if_neg hnm]
      exact ⟨rfl, hnd, hexp⟩
    | some entry =>
      have hmem : (p, entry) ∈ pc := odFind?_some_mem hf
      have hfresh : cache_fresh now entry.expires_at = true := by
        have he := hexp (p, entry) hmem
        simp only at he
        simp only [cache_fresh, he]
        simp only [PHOTO_CACHE_TTL]
        rw [decide_eq_true_eq]
        omega
      rw [get_cached_photo_hit now p pc entry hf hfresh]
      obtain ⟨kv0, hkv0⟩ : ∃ kv0, pc.find? (fun kv => kv.1 == p) = some kv0 := by
        unfold odFind? at hf
        cases hff : pc.find? (fun kv => kv.1 == p) with
        | none => rw [hff] at hf; cases hf
        | some kv0 => exact ⟨kv0, rfl⟩
      have hk1 : kv0.1 = p := by simpa using List.find?_some hkv0
      have hkv0mem : kv0 ∈ pc := List.mem_of_find?_eq_some hkv0
      rw [odMoveToEnd_of_find? hkv0]
      have hpmem : p ∈ pc.map Prod.fst := by
        rw [← hk1]
        exact List.mem_map_of_mem Prod.fst hkv0mem
      refine ⟨?_, ?_, ?_⟩
      · simp only [specLRUStep]
        rw [if_pos hpmem]
        rw [List.map_append, mapFst_eraseP]
        simp [specTouch, hk1]
      · rw [List.map_append, mapFst_eraseP]
        apply nodup_append_singleton
        · exact (List.eraseP_sublist _).nodup hnd
        · rw [hk1]
          exact not_mem_eraseP_self p _ hnd
      · intro kv hkv
        rcases List.mem_append.mp hkv with h1 | h1
        · exact hexp kv ((List.eraseP_sublist pc).mem h1)
        · rw [List.mem_singleton] at h1
          subst h1
          exact hexp kv hkv0mem
  | set p c mt e =>
    simp only [applyPOp]
    have hlen : (pc.eraseP (fun kv => kv.1 == p)).length =
        ((pc.map Prod.fst).eraseP (fun x => x == p)).length := by
      rw [← mapFst_eraseP]
      rw [List.length_map]
    have hkeys : (set_cached_photo now p c mt e pc).map Prod.fst =
        ((pc.map Prod.fst).eraseP (fun x => x == p)).drop
            (((pc.map Prod.fst).eraseP (fun x => x == p)).length + 1 -
              PHOTO_CACHE_MAX_ITEMS) ++ [p] := by
      rw [set_cached_photo_eq, List.map_append, List.map_drop, mapFst_eraseP, hlen]
      rfl
    have hBnodup : ((pc.map Prod.fst).eraseP (fun x => x == p)).Nodup :=
      (List.eraseP_sublist _).nodup hnd
    have hpB : p ∉ (pc.map Prod.fst).eraseP (fun x => x == p) :=
      not_mem_eraseP_self p _ hnd
    refine ⟨?_, ?_, ?_⟩
    · rw [hkeys]
      simp only [specLRUStep, specTouch]
      set B := (pc.map Prod.fst).eraseP (fun x => x == p) with hB
      by_cases hover : PHOTO_CACHE_MAX_ITEMS < (B ++ [p]).length
      · rw [if_pos hover]
        rw [List.length_append, List.length_singleton] at hover ⊢
        have hle : B.length + 1 - PHOTO_CACHE_MAX_ITEMS ≤ B.length := by
          simp only [PHOTO_CACHE_MAX_ITEMS] at hover ⊢
          omega
        rw [List.drop_append_of_le_length hle]
      · rw [if_neg hover]
        rw [List.length_append, List.length_singleton] at hover
        have h0 : B.length + 1 - PHOTO_CACHE_MAX_ITEMS = 0 := by
          simp only [PHOTO_CACHE_MAX_ITEMS] at hover ⊢
          omega
        rw [h0, List.drop_zero]
    · rw [hkeys]
      apply nodup_append_singleton
      · exact ((List.drop_sublist _ _).nodup hBnodup)
      · intro hmem
        exact hpB ((List.drop_sublist _ _).mem hmem)
    · intro kv hkv
      rw [set_cached_photo_eq] at hkv
      rcases List.mem_append.mp hkv with h1 | h1
      · exact hexp kv ((List.eraseP_sublist pc).mem ((List.drop_sublist _ _).mem h1))
      · rw [List.mem_singleton] at h1
        subst h1
        rfl

theorem applyPOps_keys (now : Nat) (ops : List POp) (pc : PhotoCache)
    (hnd : (pc.map Prod.fst).Nodup)
    (hexp : ∀ kv ∈ pc, kv.2.expires_at = now + PHOTO_CACHE_TTL) :
    (applyPOps now ops pc).map Prod.fst =
      List.foldl specLRUStep (pc.map Prod.fst) ops := by
  induction ops generalizing pc with
  | nil => rfl
  | cons op ops ih =>
    obtain ⟨h1, h2, h3⟩ := applyPOp_step now pc op hnd hexp
    unfold applyPOps at *
    rw [List.foldl_cons, List.foldl_cons, ← h1]
    exact ih (applyPOp now pc op) h2 h3

theorem specTouch_length_of_mem (l : List String) (p : String) (hp : p ∈ l) :
    (specTouch l p).length = l.length := by
  unfold specTouch
  rw [List.length_append, List.length_singleton,
    List.length_eraseP_of_mem hp (by simp)]
  have h1 : 0 < l.length := List.length_pos.mpr (List.ne_nil_of_mem hp)
  omega

theorem specTouch_nodup (l : List String) (p : String) (hl : l.Nodup) :
    (specTouch l p).Nodup :=
  nodup_append_singleton ((List.eraseP_sublist _).nodup hl)
    (not_mem_eraseP_self p _ hl)

theorem specTouch_subset (l : List String) (p : String) (x : String)
    (hx : x ∈ specTouch l p) : x ∈ l ∨ x = p := by
  rcases List.mem_append.mp hx with h1 | h1
  · exact Or.inl ((List.eraseP_sublist _).mem h1)
  · rw [List.mem_singleton] at h1
    exact Or.inr h1

theorem specFold_length (ops : List POp) (l : List String)
    (hdisj : ∀ k ∈ setKeys ops, k ∉ l) (hnd : (setKeys ops).Nodup)
    (hl : l.Nodup) (hle : l.length ≤ PHOTO_CACHE_MAX_ITEMS) :
    (List.foldl specLRUStep l ops).length =
      min (l.length + (setKeys ops).length) PHOTO_CACHE_MAX_ITEMS := by
  induction ops generalizing l with
  | nil =>
    simp only [List.foldl_nil, setKeys, List.filterMap_nil, List.length_nil]
    omega
  | cons op ops ih =>
    cases op with
    | get p =>
      rw [List.foldl_cons]
      have hsk : setKeys (POp.get p :: ops) = setKeys ops := by
        simp [setKeys]
      rw [hsk] at hdisj hnd ⊢
      simp only [specLRUStep]
      by_cases hp : p ∈ l
      · rw [if_pos hp]
        have hlen2 := specTouch_length_of_mem l p hp
        have hnd2 := specTouch_nodup l p hl
        have hdisj2 : ∀ k ∈ setKeys ops, k ∉ specTouch l p := by
          intro k hk hkmem
          rcases specTouch_subset l p k hkmem with h1 | h1
          · exact hdisj k hk h1
          · subst h1
            exact hdisj k hk hp
        rw [ih _ hdisj2 hnd hnd2 (by omega), hlen2]
      · rw [if_neg hp]
        exact ih _ hdisj hnd hl hle
    | set p c mt e =>
      rw [List.foldl_cons]
      have hsk : setKeys (POp.set p c mt e :: ops) = p :: setKeys ops := by
        simp [setKeys]
      rw [hsk] at hdisj hnd ⊢
      rw [List.nodup_cons] at hnd
      have hpl : p ∉ l := hdisj p (List.mem_cons_self _ _)
      have htouch : specTouch l p = l ++ [p] := by
        unfold specTouch
        rw [List.eraseP_of_forall_not]
        intro x hx
        simp only [beq_iff_eq]
        intro hxp
        subst hxp
        exact hpl hx
      simp only [specLRUStep]
      rw [htouch]
      have hndlp : (l ++ [p]).Nodup := nodup_append_singleton hl hpl
      have hdisjlp : ∀ k ∈ setKeys ops, k ∉ l ++ [p] := by
        intro k hk hkmem
        rcases List.mem_append.mp hkmem with h1 | h1
        · exact hdisj k (List.mem_cons_of_mem _ hk) h1
        · rw [List.mem_singleton] at h1
          subst h1
          exact hnd.1 hk
      by_cases hov : PHOTO_CACHE_MAX_ITEMS < (l ++ [p]).length
      · rw [if_pos hov]
        have hlen128 :
            ((l ++ [p]).drop ((l ++ [p]).length - PHOTO_CACHE_MAX_ITEMS)).length =
              PHOTO_CACHE_MAX_ITEMS := by
          rw [List.length_drop]
          rw [List.length_append, List.length_singleton] at hov ⊢
          omega
        have hnd2 :
            ((l ++ [p]).drop ((l ++ [p]).length - PHOTO_CACHE_MAX_ITEMS)).Nodup :=
          (List.drop_sublist _ _).nodup hndlp
        have hdisj2 : ∀ k ∈ setKeys ops,
            k ∉ (l ++ [p]).drop ((l ++ [p]).length - PHOTO_CACHE_MAX_ITEMS) := by
          intro k hk hkmem
          exact hdisjlp k hk ((List.drop_sublist _ _).mem hkmem)
        rw [ih _ hdisj2 hnd.2 hnd2 (by omega), hlen128]
        rw [List.length_append, List.length_singleton] at hov
        simp only [List.length_cons]
        omega
      · rw [if_neg hov]
        rw [ih _ hdisjlp hnd.2 hndlp (by omega)]
        rw [List.length_append, List.length_singleton] at hov ⊢
        simp only [List.length_cons]
        omega

/-- C4: starting from an empty content cache, any sequence of insertions of
pairwise-distinct keys interleaved with arbitrary `get` accesses, all within
the freshness window (modelled as a single instant `now`), leaves exactly
the key list computed by the spec's access-ordered LRU model (each `get` hit
and each `set` moves the key to the most-recently-used end, and an insertion
over the 128-entry bound evicts the least-recently-used key first); with
more than 128 insertions exactly 128 keys remain. -/
theorem c4_lru_bound (now : Nat) (ops : List POp)
    (hdist : (setKeys ops).Nodup)
    (hN : PHOTO_CACHE_MAX_ITEMS < (setKeys ops).length) :
    (applyPOps now ops []).map Prod.fst = specLRU ops
    ∧ (specLRU ops).length = PHOTO_CACHE_MAX_ITEMS := by
  constructor
  · exact applyPOps_keys now ops [] (by simp) (by simp)
  · unfold specLRU
    rw [specFold_length ops [] (by simp) hdist (by simp)
      (by simp [PHOTO_CACHE_MAX_ITEMS])]
    simp only [List.length_nil, Nat.zero_add]
    omega

set_option maxRecDepth 100000 in
/-- Witness for C4: 129 insertions of pairwise distinct single-character
keys. -/
theorem c4_lru_bound_witness :
    (setKeys c4ops).Nodup ∧ PHOTO_CACHE_MAX_ITEMS < (setKeys c4ops).length ∧
    ((applyPOps 0 c4ops []).map Prod.fst = specLRU c4ops
      ∧ (specLRU c4ops).length = PHOTO_CACHE_MAX_ITEMS) :=
  ⟨by decide, by decide, c4_lru_bound 0 c4ops (by decide) (by decide)⟩

/-! ### Remote-store and path lemmas (claims C1, C2, C8, C9) -/

theorem odFind?_odAssign_ne {V : Type} (n k : String) (v : V)
    (l : List (String × V)) (h : n ≠ k) :
    odFind? n (odAssign k v l) = odFind? n l := by
  induction l with
  | nil =>
    unfold odAssign odFind?
    rw [List.find?_cons_of_neg _ (by simpa using fun hc => h hc.symm)]
  | cons kv rest ih =>
    obtain ⟨a, w⟩ := kv
    simp only [odAssign]
    by_cases ha : a = k
    · subst ha
      rw [if_pos (by simp)]
      unfold odFind?
      rw [List.find?_cons_of_neg _ (by simpa using fun hc => h hc.symm),
        List.find?_cons_of_neg _ (by simpa using fun hc => h hc.symm)]
    · rw [if_neg (by simpa using ha)]
      by_cases han : a = n
      · subst han
        unfold odFind?
        rw [List.find?_cons_of_pos _ (by simp), List.find?_cons_of_pos _ (by simp)]
      · unfold odFind?
        rw [List.find?_cons_of_neg _ (by simpa using han),
          List.find?_cons_of_neg _ (by simpa using han)]
        exact ih

theorem odFind?_odErase_ne {V : Type} (n k : String)
    (l : List (String × V)) (h : n ≠ k) :
    odFind? n (odErase k l) = odFind? n l := by
  induction l with
  | nil => rfl
  | cons kv rest ih =>
    obtain ⟨a, w⟩ := kv
    by_cases ha : a = k
    · rw [show odErase k ((a, w) :: rest) = rest from
        List.eraseP_cons_of_pos (by simpa using ha)]
      unfold odFind?
      rw [List.find?_cons_of_neg _ (by simp only [beq_iff_eq]; rw [ha]; exact fun hc => h hc.symm)]
    · rw [show odErase k ((a, w) :: rest) = (a, w) :: odErase k rest from
        List.eraseP_cons_of_neg (by simpa using ha)]
      by_cases han : a = n
      · subst han
        unfold odFind?
        rw [List.find?_cons_of_pos _ (by simp), List.find?_cons_of_pos _ (by simp)]
      · unfold odFind?
        rw [List.find?_cons_of_neg _ (by simpa using han),
          List.find?_cons_of_neg _ (by simpa using han)]
        exact ih

theorem odFind?_filter_drop {V : Type} (k : String) (q : String × V → Bool)
    (l : List (String × V)) (h : ∀ v, q (k, v) = false) :
    odFind? k (l.filter q) = none := by
  induction l with
  | nil => rfl
  | cons kv rest ih =>
    by_cases hk : kv.1 = k
    · obtain ⟨a, v⟩ := kv
      simp only at hk
      subst hk
      rw [List.filter_cons_of_neg (by simp [h v])]
      exact ih
    · by_cases hq : q kv = true
      · rw [List.filter_cons_of_pos hq]
        unfold odFind?
        rw [List.find?_cons_of_neg _ (by simpa using hk)]
        exact ih
      · rw [List.filter_cons_of_neg hq]
        exact ih

theorem odFind?_filter_none {V : Type} (k : String) (q : String × V → Bool)
    (l : List (String × V)) (h : odFind? k l = none) :
    odFind? k (l.filter q) = none := by
  unfold odFind? at h ⊢
  cases hf : (l.filter q).find? (fun kv => kv.1 == k) with
  | none => rfl
  | some kv =>
    cases hg : l.find? (fun kv => kv.1 == k) with
    | some kv2 => rw [hg] at h; cases h
    | none =>
      have hmem : kv ∈ l := (List.filter_sublist l).mem (List.mem_of_find?_eq_some hf)
      have hpred := List.find?_some hf
      have := List.find?_eq_none.mp hg kv hmem
      exact absurd hpred this

theorem remote_delete_absent (rm : Remote) (p : String)
    (h : remote_lookup rm p = none) :
    remote_delete rm p = .error .notFound := by
  unfold remote_delete
  rw [h]
  rfl

theorem remote_delete_present (rm : Remote) (p : String) (v : String)
    (h : remote_lookup rm p = some v) :
    remote_delete rm p = .ok (rm.filter (fun kv => !(underPath p kv.1))) := by
  unfold remote_delete
  rw [h]
  rfl

theorem remote_delete_ok (rm rm' : Remote) (p : String)
    (h : remote_delete rm p = .ok rm') :
    rm' = rm.filter (fun kv => !(underPath p kv.1)) := by
  unfold remote_delete at h
  by_cases hs : (remote_lookup rm p).isSome
  · rw [if_pos hs] at h
    injection h with h
    exact h.symm
  · rw [if_neg hs] at h
    cases h

theorem listStarts_false_of_mem_not_mem (p s : List Char) (c : Char)
    (hp : c ∈ p) (hs : c ∉ s) : listStarts p s = false := by
  cases h : listStarts p s with
  | false => rfl
  | true =>
    obtain ⟨t, rfl⟩ := (listStarts_iff p s).mp h
    exact absurd (List.mem_append.mpr (Or.inl hp)) hs

theorem listStarts_false_of_longer (p s : List Char)
    (h : s.length < p.length) : listStarts p s = false := by
  cases hls : listStarts p s with
  | false => rfl
  | true =>
    have := listStarts_le_length p s hls
    omega

theorem underPath_self (p : String) : underPath p p = true := by
  simp [underPath]

theorem recipe_md_path_inj (a b : String) (h : recipe_md_path a = recipe_md_path b) :
    a = b := by
  unfold recipe_md_path at h
  have hdata : (RECIPES_ROOT ++ "/" ++ a ++ ".md").data =
      (RECIPES_ROOT ++ "/" ++ b ++ ".md").data := by rw [h]
  simp only [String.data_append, List.append_assoc] at hdata
  have h2 := List.append_cancel_left hdata
  have h3 := List.append_cancel_left h2
  have h4 := List.append_cancel_right h3
  cases a
  cases b
  simp only at h4
  rw [h4]

theorem remote_delete_error (rm : Remote) (p : String) (e : RErr)
    (h : remote_delete rm p = .error e) : remote_lookup rm p = none := by
  unfold remote_delete at h
  by_cases hs : (remote_lookup rm p).isSome
  · rw [if_pos hs] at h
    cases h
  · exact Option.not_isSome_iff_eq_none.mp hs

theorem md_path_toList (s : String) :
    (recipe_md_path s).toList =
      (RECIPES_ROOT.toList ++ "/".toList) ++ (s.toList ++ ".md".toList) := by
  simp [recipe_md_path, String.toList, String.data_append, List.append_assoc]

theorem folder_toList (s : String) :
    (recipe_folder s).toList =
      (RECIPES_ROOT.toList ++ "/".toList) ++ s.toList := by
  simp [recipe_folder, String.toList, String.data_append, List.append_assoc]

theorem underPath_md_md_false (old name : String) (hne : name ≠ old)
    (hname : '/' ∉ name.toList) :
    underPath (recipe_md_path old) (recipe_md_path name) = false := by
  unfold underPath
  have h1 : (recipe_md_path name == recipe_md_path old) = false := by
    rw [beq_eq_false_iff_ne]
    intro hc
    exact hne (recipe_md_path_inj name old hc)
  have h2 : strStarts (recipe_md_path old ++ "/") (recipe_md_path name) = false := by
    unfold strStarts
    have e1 : (recipe_md_path old ++ "/").toList =
        (RECIPES_ROOT.toList ++ "/".toList) ++
          (old.toList ++ (".md".toList ++ "/".toList)) := by
      simp [recipe_md_path, String.toList, String.data_append, List.append_assoc]
    rw [e1, md_path_toList, listStarts_append_left]
    apply listStarts_false_of_mem_not_mem _ _ '/'
    · apply List.mem_append.mpr
      refine Or.inr (List.mem_append.mpr (Or.inr ?_))
      decide
    · intro hc
      rcases List.mem_append.mp hc with hc1 | hc1
      · exact hname hc1
      · revert hc1
        decide
  rw [h1, h2]
  rfl

theorem underPath_md_folder_false (name : String) :
    underPath (recipe_md_path name) (recipe_folder name) = false := by
  unfold underPath
  have h3 : (".md".toList).length = 3 := by decide
  have h1l : ("/".toList).length = 1 := by decide
  have hmdlen : (recipe_md_path name).toList.length =
      (RECIPES_ROOT.toList ++ "/".toList).length + name.toList.length + 3 := by
    rw [md_path_toList]
    simp only [List.length_append]
    omega
  have hfolen : (recipe_folder name).toList.length =
      (RECIPES_ROOT.toList ++ "/".toList).length + name.toList.length := by
    rw [folder_toList]
    simp only [List.length_append]
  have h1 : (recipe_folder name == recipe_md_path name) = false := by
    rw [beq_eq_false_iff_ne]
    intro hc
    have := congrArg (fun s : String => s.toList.length) hc
    simp only at this
    omega
  have h2 : strStarts (recipe_md_path name ++ "/") (recipe_folder name) = false := by
    unfold strStarts
    apply listStarts_false_of_longer
    have : (recipe_md_path name ++ "/").toList.length =
        (recipe_md_path name).toList.length + 1 := by
      simp [String.toList, String.data_append]
    omega
  rw [h1, h2]
  rfl

theorem invalidate_some_scope (name : String) (st : Caches)
    (hmd : (st.recipe_md_cache.map Prod.fst).Nodup)
    (hph : (st.photo_cache.map Prod.fst).Nodup) :
    (invalidate_for_recipe_change (some name) st).recipes_cache = ⟨none, 0⟩
    ∧ odFind? name (invalidate_for_recipe_change (some name) st).recipe_md_cache = none
    ∧ (∀ n, n ≠ name →
        odFind? n (invalidate_for_recipe_change (some name) st).recipe_md_cache =
          odFind? n st.recipe_md_cache)
    ∧ (∀ k, strStarts (RECIPES_ROOT ++ "/" ++ name ++ "/") k = true →
        odFind? k (invalidate_for_recipe_change (some name) st).photo_cache = none)
    ∧ (∀ k, strStarts (RECIPES_ROOT ++ "/" ++ name ++ "/") k = false →
        odFind? k (invalidate_for_recipe_change (some name) st).photo_cache =
          odFind? k st.photo_cache) := by
  refine ⟨rfl, ?_, ?_, ?_, ?_⟩
  · show odFind? name (odErase name st.recipe_md_cache) = none
    rw [odErase_eq_filter _ _ hmd]
    apply odFind?_filter_drop
    intro v
    simp
  · intro n hn
    exact odFind?_odErase_ne n name _ hn
  · intro k hk
    show odFind? k (clear_photo_cache (some name) st.photo_cache) = none
    rw [clear_photo_cache_eq_filter _ _ hph]
    apply odFind?_filter_drop
    intro v
    simp [hk]
  · intro k hk
    show odFind? k (clear_photo_cache (some name) st.photo_cache) = _
    rw [clear_photo_cache_eq_filter _ _ hph]
    apply odFind?_filter_keep
    intro v
    simp [hk]

/-- C8: `deleteDocument` fails with the remote not-found error when the
markdown object is absent (leaving caches and remote untouched); when it
exists, the call succeeds, the markdown object is gone from the remote, the
photo folder is gone as well whether or not it existed (its absence is not
an error), and the cache invalidation is scoped to this document: the
catalog slot is cleared, this document's text and photo entries are dropped,
and every other document's entries survive. -/
theorem c8_delete_document (name : String) (st : Caches) (rm : Remote)
    (hmd : (st.recipe_md_cache.map Prod.fst).Nodup)
    (hph : (st.photo_cache.map Prod.fst).Nodup) :
    (remote_lookup rm (recipe_md_path name) = none →
      delete_recipe name st rm = (.error .notFound, st, rm))
    ∧ (∀ content, remote_lookup rm (recipe_md_path name) = some content →
        (delete_recipe name st rm).1 = .ok ()
        ∧ remote_lookup (delete_recipe name st rm).2.2 (recipe_md_path name) = none
        ∧ remote_lookup (delete_recipe name st rm).2.2 (recipe_folder name) = none
        ∧ (delete_recipe name st rm).2.1.recipes_cache = ⟨none, 0⟩
        ∧ odFind? name (delete_recipe name st rm).2.1.recipe_md_cache = none
        ∧ (∀ n, n ≠ name →
            odFind? n (delete_recipe name st rm).2.1.recipe_md_cache =
              odFind? n st.recipe_md_cache)
        ∧ (∀ k, strStarts (RECIPES_ROOT ++ "/" ++ name ++ "/") k = true →
            odFind? k (delete_recipe name st rm).2.1.photo_cache = none)
        ∧ (∀ k, strStarts (RECIPES_ROOT ++ "/" ++ name ++ "/") k = false →
            odFind? k (delete_recipe name st rm).2.1.photo_cache =
              odFind? k st.photo_cache)) := by
  obtain ⟨hs1, hs2, hs3, hs4, hs5⟩ := invalidate_some_scope name st hmd hph
  constructor
  · intro habs
    unfold delete_recipe
    rw [remote_delete_absent rm _ habs]
  · intro content hpres
    have hdel : delete_recipe name st rm =
        (.ok (), invalidate_for_recipe_change (some name) st,
          match remote_delete
              (rm.filter (fun kv => !(underPath (recipe_md_path name) kv.1)))
              (recipe_folder name) with
          | .ok r => r
          | .error _ =>
            rm.filter (fun kv => !(underPath (recipe_md_path name) kv.1))) := by
      unfold delete_recipe
      rw [remote_delete_present rm _ content hpres]
    have hmdnone : remote_lookup
        (rm.filter (fun kv => !(underPath (recipe_md_path name) kv.1)))
        (recipe_md_path name) = none := by
      apply odFind?_filter_drop
      intro v
      simp [underPath_self]
    have hrm2 : remote_lookup (delete_recipe name st rm).2.2 (recipe_md_path name) = none
        ∧ remote_lookup (delete_recipe name st rm).2.2 (recipe_folder name) = none := by
      rw [hdel]
      cases hfd : remote_delete
          (rm.filter (fun kv => !(underPath (recipe_md_path name) kv.1)))
          (recipe_folder name) with
      | ok r =>
        rw [remote_delete_ok _ r _ hfd]
        constructor
        · exact odFind?_filter_none _ _ _ hmdnone
        · apply odFind?_filter_drop
          intro v
          simp [underPath_self]
      | error e =>
        exact ⟨hmdnone, remote_delete_error _ _ e hfd⟩
    refine ⟨by rw [hdel], hrm2.1, hrm2.2, ?_, ?_, ?_, ?_, ?_⟩
    · rw [hdel]
      exact hs1
    · rw [hdel]
      exact hs2
    · intro n hn
      rw [hdel]
      exact hs3 n hn
    · intro k hk
      rw [hdel]
      exact hs4 k hk
    · intro k hk
      rw [hdel]
      exact hs5 k hk

/-- Witness for C8: deleting recipe `"a"` whose markdown object exists but
whose photo folder is absent succeeds, removes the markdown object, and
leaves recipe `"b"`'s caches untouched. -/
theorem c8_delete_document_witness :
    remote_lookup [("/recipes/a.md", "A")] (recipe_md_path "a") = some "A" ∧
    (delete_recipe "a"
        ⟨⟨some [], 100⟩, [("b", ("m", 50))], []⟩
        [("/recipes/a.md", "A")]).1 = .ok () ∧
    remote_lookup (delete_recipe "a"
        ⟨⟨some [], 100⟩, [("b", ("m", 50))], []⟩
        [("/recipes/a.md", "A")]).2.2 (recipe_md_path "a") = none ∧
    odFind? "b" (delete_recipe "a"
        ⟨⟨some [], 100⟩, [("b", ("m", 50))], []⟩
        [("/recipes/a.md", "A")]).2.1.recipe_md_cache = odFind? "b"
        ([("b", ("m", 50))] : MdCache) := by
  have h := (c8_delete_document "a"
      ⟨⟨some [], 100⟩, [("b", ("m", 50))], []⟩
      [("/recipes/a.md", "A")] (by decide) (by decide)).2 "A" (by decide)
  exact ⟨by decide, h.1, h.2.1, h.2.2.2.2.2.1 "b" (by decide)⟩

/-- C9: when `original_name` strips to empty or to `name` itself,
`save_recipe` behaves as a plain save: the remote-call trace contains no
move and no delete, and on success the invalidation is scoped to this
document only — the catalog slot is cleared, this document's text entry is
pre-warmed with the just-written markdown, every other document's text entry
is untouched, this document's photo entries are dropped, and every other
photo entry is untouched (no full reset). -/
theorem c9_plain_save (now : Nat) (name markdown tags original_name : String)
    (photo : Option (String × String)) (f1 f2 : Bool) (st : Caches) (rm : Remote)
    (h : pyStripS original_name = "" ∨ pyStripS original_name = name)
    (hmd : (st.recipe_md_cache.map Prod.fst).Nodup)
    (hph : (st.photo_cache.map Prod.fst).Nodup) :
    ((save_recipe now name markdown tags original_name photo f1 f2 st rm).calls.all
        (fun c => match c with
          | RCall.move _ _ => false
          | RCall.delete _ => false
          | RCall.upload _ => true
          | RCall.createFolder _ => true) = true)
    ∧ ((save_recipe now name markdown tags original_name photo f1 f2 st rm).result =
          .ok () →
        (save_recipe now name markdown tags original_name photo f1 f2 st rm).caches.recipes_cache =
            ⟨none, 0⟩
        ∧ odFind? name (save_recipe now name markdown tags original_name photo f1 f2 st rm).caches.recipe_md_cache =
            some (⟨replace_tags markdown.toList (normalize_tags tags.toList)⟩,
              now + RECIPE_MD_CACHE_TTL)
        ∧ (∀ n, n ≠ name →
            odFind? n (save_recipe now name markdown tags original_name photo f1 f2 st rm).caches.recipe_md_cache =
              odFind? n st.recipe_md_cache)
        ∧ (∀ k, strStarts (RECIPES_ROOT ++ "/" ++ name ++ "/") k = true →
            odFind? k (save_recipe now name markdown tags original_name photo f1 f2 st rm).caches.photo_cache = none)
        ∧ (∀ k, strStarts (RECIPES_ROOT ++ "/" ++ name ++ "/") k = false →
            odFind? k (save_recipe now name markdown tags original_name photo f1 f2 st rm).caches.photo_cache =
              odFind? k st.photo_cache)) := by
  obtain ⟨hs1, hs2, hs3, hs4, hs5⟩ := invalidate_some_scope name st hmd hph
  have hir : (pyStripS original_name != "" && pyStripS original_name != name) = false := by
    rcases h with h | h <;> simp [h]
  have hcaches :
      ∀ st1 : Caches, st1 = invalidate_for_recipe_change (some name) st →
        (odFind? name (set_cached_recipe_md now name
            ⟨replace_tags markdown.toList (normalize_tags tags.toList)⟩
            st1.recipe_md_cache) =
          some (⟨replace_tags markdown.toList (normalize_tags tags.toList)⟩,
            now + RECIPE_MD_CACHE_TTL))
        ∧ (∀ n, n ≠ name →
            odFind? n (set_cached_recipe_md now name
              ⟨replace_tags markdown.toList (normalize_tags tags.toList)⟩
              st1.recipe_md_cache) = odFind? n st.recipe_md_cache) := by
    intro st1 hst1
    constructor
    · exact odFind?_odAssign name _ _
    · intro n hn
      unfold set_cached_recipe_md
      rw [odFind?_odAssign_ne n name _ _ hn, hst1]
      exact hs3 n hn
  unfold save_recipe
  simp only [hir, Bool.false_eq_true, if_false]
  cases hf1 : f1 with
  | true =>
    refine ⟨by rfl, ?_⟩
    intro hc
    simp at hc
  | false =>
    cases photo with
    | none =>
      refine ⟨by rfl, ?_⟩
      intro _
      refine ⟨hs1, (hcaches _ rfl).1, (hcaches _ rfl).2, hs4, hs5⟩
    | some pr =>
      obtain ⟨fn, ct⟩ := pr
      cases hf2 : f2 with
      | true =>
        refine ⟨by rfl, ?_⟩
        intro hc
        simp at hc
      | false =>
        refine ⟨by rfl, ?_⟩
        intro _
        refine ⟨hs1, (hcaches _ rfl).1, (hcaches _ rfl).2, hs4, hs5⟩

/-- Witness for C9: `original_name = " a "` strips to the name being saved,
so the save is plain; the catalog is cleared, recipe `"b"`'s text entry and
photo entry survive. -/
theorem c9_plain_save_witness :
    (pyStripS " a " = "" ∨ pyStripS " a " = "a") ∧
    ((save_recipe 0 "a" "body" "" " a " none false false
        ⟨⟨some [], 100⟩, [("b", ("m", 50))],
          [("/recipes/a/p", ⟨"c", "m", "e", 9⟩),
           ("/recipes/b/q", ⟨"c", "m", "e", 9⟩)]⟩ []).calls.all
        (fun c => match c with
          | RCall.move _ _ => false
          | RCall.delete _ => false
          | RCall.upload _ => true
          | RCall.createFolder _ => true) = true) ∧
    (save_recipe 0 "a" "body" "" " a " none false false
        ⟨⟨some [], 100⟩, [("b", ("m", 50))],
          [("/recipes/a/p", ⟨"c", "m", "e", 9⟩),
           ("/recipes/b/q", ⟨"c", "m", "e", 9⟩)]⟩ []).caches.recipes_cache =
      ⟨none, 0⟩ ∧
    odFind? "b" (save_recipe 0 "a" "body" "" " a " none false false
        ⟨⟨some [], 100⟩, [("b", ("m", 50))],
          [("/recipes/a/p", ⟨"c", "m", "e", 9⟩),
           ("/recipes/b/q", ⟨"c", "m", "e", 9⟩)]⟩ []).caches.recipe_md_cache =
      odFind? "b" ([("b", ("m", 50))] : MdCache) ∧
    odFind? "/recipes/b/q" (save_recipe 0 "a" "body" "" " a " none false false
        ⟨⟨some [], 100⟩, [("b", ("m", 50))],
          [("/recipes/a/p", ⟨"c", "m", "e", 9⟩),
           ("/recipes/b/q", ⟨"c", "m", "e", 9⟩)]⟩ []).caches.photo_cache =
      odFind? "/recipes/b/q"
        ([("/recipes/a/p", ⟨"c", "m", "e", 9⟩),
          ("/recipes/b/q", ⟨"c", "m", "e", 9⟩)] : PhotoCache) := by
  have h := c9_plain_save 0 "a" "body" "" " a " none false false
      ⟨⟨some [], 100⟩, [("b", ("m", 50))],
        [("/recipes/a/p", ⟨"c", "m", "e", 9⟩),
         ("/recipes/b/q", ⟨"c", "m", "e", 9⟩)]⟩ []
      (by decide) (by decide) (by decide)
  have h2 := h.2 (by decide)
  exact ⟨by decide, h.1, h2.1, h2.2.2.1 "b" (by decide),
    h2.2.2.2.2 "/recipes/b/q" (by decide)⟩

/-- C1 counterexample: a save whose markdown upload raises surfaces the
error with the caches untouched — in particular the catalog cache entry is
still present, so the invalidation claimed to happen even on failure does
not happen. -/
theorem c1_counterexample :
    (save_recipe 0 "a" "body" "x" "" none true false
        ⟨⟨some [], 100⟩, [("a", ("m", 50))], []⟩ []).result =
      Except.error RErr.upstream
    ∧ (save_recipe 0 "a" "body" "x" "" none true false
        ⟨⟨some [], 100⟩, [("a", ("m", 50))], []⟩ []).caches.recipes_cache.value ≠
      none :=
  ⟨by decide, by decide⟩

/-- C1 amended: cache invalidation happens only on the success path of
`save_recipe` — whenever a remote upload raises, the error surfaces with
every cache region exactly as it was before the call (nothing is
invalidated, and nothing is pre-warmed). -/
theorem c1_save_failure_leaves_caches (now : Nat)
    (name markdown tags original_name : String) (photo : Option (String × String))
    (f1 f2 : Bool) (st : Caches) (rm : Remote) (err : RErr)
    (h : (save_recipe now name markdown tags original_name photo f1 f2 st rm).result =
      .error err) :
    (save_recipe now name markdown tags original_name photo f1 f2 st rm).caches = st := by
  cases hf1 : f1 with
  | true => rfl
  | false =>
    rw [hf1] at h
    cases photo with
    | none =>
      rw [show (save_recipe now name markdown tags original_name none false f2 st rm).result =
        Except.ok () from rfl] at h
      cases h
    | some pr =>
      obtain ⟨fn, ct⟩ := pr
      cases hf2 : f2 with
      | true => rfl
      | false =>
        rw [hf2] at h
        rw [show (save_recipe now name markdown tags original_name
          (some (fn, ct)) false false st rm).result = Except.ok () from rfl] at h
        cases h

/-- Witness for C1 amended at a concrete failing save. -/
theorem c1_save_failure_leaves_caches_witness :
    (save_recipe 0 "a" "body" "x" "" none true false
        ⟨⟨some [], 100⟩, [("a", ("m", 50))], []⟩ []).result =
      Except.error RErr.upstream ∧
    (save_recipe 0 "a" "body" "x" "" none true false
        ⟨⟨some [], 100⟩, [("a", ("m", 50))], []⟩ []).caches =
      ⟨⟨some [], 100⟩, [("a", ("m", 50))], []⟩ :=
  ⟨by decide,
    c1_save_failure_leaves_caches 0 "a" "body" "x" "" none true false
      ⟨⟨some [], 100⟩, [("a", ("m", 50))], []⟩ [] RErr.upstream (by decide)⟩

/-- C2 counterexample: a rename from `"a"` to `"b"` while a document
`b.md` already exists does not fail with a Conflict error — it returns ok
and overwrites the existing document's text with the newly saved text. -/
theorem c2_counterexample :
    (save_recipe 0 "b" "body" "" "a" none false false
        ⟨⟨some [], 100⟩, [], []⟩
        [("/recipes/b.md", "old"), ("/recipes/a.md", "A"), ("/recipes/a", "")]).result =
      Except.ok ()
    ∧ remote_lookup (save_recipe 0 "b" "body" "" "a" none false false
        ⟨⟨some [], 100⟩, [], []⟩
        [("/recipes/b.md", "old"), ("/recipes/a.md", "A"), ("/recipes/a", "")]).remote
        "/recipes/b.md" = some "body" :=
  ⟨by decide, by decide⟩

/-- C2 amended: `save_recipe` performs no conflict check on rename — when a
document already exists at the target name the operation succeeds and the
existing text object is overwritten with the newly saved markdown. -/
theorem c2_rename_overwrites (now : Nat) (name markdown tags original_name : String)
    (st : Caches) (rm : Remote) (oldContent : String)
    (hr1 : pyStripS original_name ≠ "") (hr2 : pyStripS original_name ≠ name)
    (hname : '/' ∉ name.toList)
    (htarget : remote_lookup rm (recipe_md_path name) = some oldContent) :
    (save_recipe now name markdown tags original_name none false false st rm).result =
      .ok ()
    ∧ remote_lookup
        (save_recipe now name markdown tags original_name none false false st rm).remote
        (recipe_md_path name) =
      some ⟨replace_tags markdown.toList (normalize_tags tags.toList)⟩ := by
  have hir : (pyStripS original_name != "" && pyStripS original_name != name) = true := by
    simp [hr1, hr2]
  constructor
  · rfl
  · unfold save_recipe
    simp only [hir, eq_self_iff_true, if_true, Bool.false_eq_true, if_false]
    cases hd : remote_delete
        (remote_upload
          (match remote_move rm (recipe_folder (pyStripS original_name))
              (recipe_folder name) with
            | Except.ok rm' => rm'
            | Except.error _ => rm)
          (recipe_md_path name)
          ⟨replace_tags markdown.toList (normalize_tags tags.toList)⟩)
        (recipe_md_path (pyStripS original_name)) with
    | ok r =>
      dsimp only
      rw [remote_delete_ok _ r _ hd]
      have hkeep : ∀ v : String,
          (fun kv : String × String =>
            !(underPath (recipe_md_path (pyStripS original_name)) kv.1))
            (recipe_md_path name, v) = true := by
        intro v
        simp only
        rw [underPath_md_md_false (pyStripS original_name) name (Ne.symm hr2) hname]
        rfl
      unfold remote_lookup
      rw [odFind?_filter_keep _ _ _ hkeep]
      exact odFind?_odAssign _ _ _
    | error e =>
      dsimp only
      exact odFind?_odAssign _ _ _

/-- Witness for C2 amended at the concrete rename `"a"` to `"b"` with
`b.md` occupied. -/
theorem c2_rename_overwrites_witness :
    pyStripS "a" ≠ "" ∧ pyStripS "a" ≠ "b" ∧ '/' ∉ ("b" : String).toList ∧
    remote_lookup
      [("/recipes/b.md", "old"), ("/recipes/a.md", "A"), ("/recipes/a", "")]
      (recipe_md_path "b") = some "old" ∧
    ((save_recipe 0 "b" "body" "" "a" none false false ⟨⟨some [], 100⟩, [], []⟩
        [("/recipes/b.md", "old"), ("/recipes/a.md", "A"), ("/recipes/a", "")]).result =
      .ok ()
    ∧ remote_lookup
        (save_recipe 0 "b" "body" "" "a" none false false ⟨⟨some [], 100⟩, [], []⟩
          [("/recipes/b.md", "old"), ("/recipes/a.md", "A"), ("/recipes/a", "")]).remote
        (recipe_md_path "b") =
      some ⟨replace_tags "body".toList (normalize_tags "".toList)⟩) :=
  ⟨by decide, by decide, by decide, by decide,
    c2_rename_overwrites 0 "b" "body" "" "a" ⟨⟨some [], 100⟩, [], []⟩
      [("/recipes/b.md", "old"), ("/recipes/a.md", "A"), ("/recipes/a", "")] "old"
      (by decide) (by decide) (by decide) (by decide)⟩

/-! ### Tag-codec lemmas (claims C3, C7) -/

theorem char_toNat_ofNat (n : Nat) (h : n < 55296) : (Char.ofNat n).toNat = n := by
  unfold Char.ofNat
  rw [dif_pos (Or.inl h)]
  rfl

theorem pyLower_idem (c : Char) : pyLower (pyLower c) = pyLower c := by
  unfold pyLower
  by_cases h : 65 ≤ c.toNat ∧ c.toNat ≤ 90
  · rw [if_pos h]
    have ht : (Char.ofNat (c.toNat + 32)).toNat = c.toNat + 32 :=
      char_toNat_ofNat _ (by omega)
    rw [if_neg (by rw [ht]; omega)]
  · rw [if_neg h, if_neg h]

theorem pyLower_not_space (c : Char) (h : isSpace c = false) :
    isSpace (pyLower c) = false := by
  unfold pyLower
  by_cases hr : 65 ≤ c.toNat ∧ c.toNat ≤ 90
  · rw [if_pos hr]
    have ht : (Char.ofNat (c.toNat + 32)).toNat = c.toNat + 32 :=
      char_toNat_ofNat _ (by omega)
    simp only [isSpace, ht, Bool.or_eq_false_iff, beq_eq_false_iff_ne]
    refine ⟨⟨⟨⟨⟨?_, ?_⟩, ?_⟩, ?_⟩, ?_⟩, ?_⟩ <;> omega
  · rw [if_neg hr]
    exact h

theorem pyLower_ne_comma (c : Char) (h : c ≠ ',') : pyLower c ≠ ',' := by
  unfold pyLower
  by_cases hr : 65 ≤ c.toNat ∧ c.toNat ≤ 90
  · rw [if_pos hr]
    intro hc
    have ht : (Char.ofNat (c.toNat + 32)).toNat = c.toNat + 32 :=
      char_toNat_ofNat _ (by omega)
    have hcomma : (',' : Char).toNat = 44 := by decide
    rw [hc, hcomma] at ht
    omega
  · rw [if_neg hr]
    exact h

theorem ne_nl_of_not_space (c : Char) (h : isSpace c = false) : c ≠ '\n' := by
  intro hc
  subst hc
  simp [isSpace] at h

theorem dropWhile_eq_self_of_all {p : Char → Bool} (l : List Char)
    (h : ∀ c ∈ l, p c = false) : l.dropWhile p = l := by
  cases l with
  | nil => rfl
  | cons c rest =>
    rw [List.dropWhile_cons]
    simp [h c (List.mem_cons_self c rest)]

theorem takeWhile_append_of_all {p : Char → Bool} (l1 l2 : List Char)
    (h : ∀ c ∈ l1, p c = true) :
    (l1 ++ l2).takeWhile p = l1 ++ l2.takeWhile p := by
  induction l1 with
  | nil => simp
  | cons c rest ih =>
    rw [List.cons_append, List.takeWhile_cons, if_pos (h c (List.mem_cons_self _ _)),
      ih (fun x hx => h x (List.mem_cons_of_mem _ hx))]
    rfl

theorem map_eq_self_of_fix {α : Type} {f : α → α} (l : List α)
    (h : ∀ a ∈ l, f a = a) : l.map f = l := by
  induction l with
  | nil => rfl
  | cons a rest ih =>
    rw [List.map_cons, h a (List.mem_cons_self _ _),
      ih (fun x hx => h x (List.mem_cons_of_mem _ hx))]

theorem pyStrip_eq_self (t : List Char) (h : ∀ c ∈ t, isSpace c = false) :
    pyStrip t = t := by
  unfold pyStrip
  rw [dropWhile_eq_self_of_all t h]
  rw [dropWhile_eq_self_of_all t.reverse (fun c hc => h c (List.mem_reverse.mp hc))]
  exact List.reverse_reverse t

theorem pyDedupAux_subset {α : Type} [DecidableEq α] (l : List α) :
    ∀ seen x, x ∈ pyDedupAux l seen → x ∈ l := by
  induction l with
  | nil =>
    intro seen x hx
    cases hx
  | cons a l ih =>
    intro seen x hx
    unfold pyDedupAux at hx
    by_cases ha : a ∈ seen
    · rw [if_pos ha] at hx
      exact List.mem_cons_of_mem _ (ih seen x hx)
    · rw [if_neg ha] at hx
      rcases List.mem_cons.mp hx with h1 | h1
      · subst h1
        exact List.mem_cons_self _ _
      · exact List.mem_cons_of_mem _ (ih _ x h1)

theorem pyDedupAux_nodup {α : Type} [DecidableEq α] (l : List α) :
    ∀ seen, (pyDedupAux l seen).Nodup ∧ ∀ x ∈ pyDedupAux l seen, x ∉ seen := by
  induction l with
  | nil =>
    intro seen
    exact ⟨List.nodup_nil, by intro x hx; cases hx⟩
  | cons a l ih =>
    intro seen
    unfold pyDedupAux
    by_cases ha : a ∈ seen
    · rw [if_pos ha]
      exact ih seen
    · rw [if_neg ha]
      obtain ⟨hnd, hns⟩ := ih (a :: seen)
      refine ⟨List.nodup_cons.mpr ⟨?_, hnd⟩, ?_⟩
      · intro hc
        exact hns a hc (List.mem_cons_self _ _)
      · intro x hx
        rcases List.mem_cons.mp hx with h1 | h1
        · subst h1
          exact ha
        · intro hc
          exact hns x h1 (List.mem_cons_of_mem _ hc)

theorem pyDedupAux_eq_self {α : Type} [DecidableEq α] (l : List α) :
    ∀ seen, l.Nodup → (∀ x ∈ l, x ∉ seen) → pyDedupAux l seen = l := by
  induction l with
  | nil =>
    intro seen _ _
    rfl
  | cons a l ih =>
    intro seen hnd hdisj
    unfold pyDedupAux
    rw [if_neg (hdisj a (List.mem_cons_self _ _))]
    rw [List.nodup_cons] at hnd
    rw [ih (a :: seen) hnd.2 ?_]
    intro x hx hc
    rcases List.mem_cons.mp hc with h1 | h1
    · subst h1
      exact hnd.1 hx
    · exact hdisj x (List.mem_cons_of_mem _ hx) h1

theorem acc_reverse_ne_nil {α : Type} {acc : List α} (he : ¬ acc.isEmpty = true) :
    acc.reverse ≠ [] := by
  intro hc
  apply he
  rw [List.isEmpty_iff]
  simpa using hc

theorem pySplitAux_nospace (cs : List Char) :
    ∀ acc, (∀ c ∈ acc, isSpace c = false) →
      ∀ t ∈ pySplitAux cs acc, t ≠ [] ∧ ∀ c ∈ t, isSpace c = false := by
  induction cs with
  | nil =>
    intro acc hacc t ht
    unfold pySplitAux at ht
    by_cases he : acc.isEmpty
    · rw [if_pos he] at ht
      cases ht
    · rw [if_neg he] at ht
      rw [List.mem_singleton] at ht
      subst ht
      exact ⟨acc_reverse_ne_nil he, fun c hc => hacc c (List.mem_reverse.mp hc)⟩
  | cons c cs ih =>
    intro acc hacc t ht
    unfold pySplitAux at ht
    by_cases hsp : isSpace c
    · rw [if_pos hsp] at ht
      by_cases he : acc.isEmpty
      · rw [if_pos he] at ht
        exact ih [] (by intro x hx; cases hx) t ht
      · rw [if_neg he] at ht
        rcases List.mem_cons.mp ht with h1 | h1
        · subst h1
          exact ⟨acc_reverse_ne_nil he, fun x hx => hacc x (List.mem_reverse.mp hx)⟩
        · exact ih [] (by intro x hx; cases hx) t h1
    · rw [if_neg hsp] at ht
      refine ih (c :: acc) ?_ t ht
      intro x hx
      rcases List.mem_cons.mp hx with h1 | h1
      · subst h1
        simpa using hsp
      · exact hacc x h1

theorem pySplitAux_mem (cs : List Char) :
    ∀ acc t, t ∈ pySplitAux cs acc → ∀ c ∈ t, c ∈ acc ∨ c ∈ cs := by
  induction cs with
  | nil =>
    intro acc t ht c hc
    unfold pySplitAux at ht
    by_cases he : acc.isEmpty
    · rw [if_pos he] at ht
      cases ht
    · rw [if_neg he] at ht
      rw [List.mem_singleton] at ht
      subst ht
      exact Or.inl (List.mem_reverse.mp hc)
  | cons x cs ih =>
    intro acc t ht c hc
    unfold pySplitAux at ht
    by_cases hsp : isSpace x
    · rw [if_pos hsp] at ht
      by_cases he : acc.isEmpty
      · rw [if_pos he] at ht
        rcases ih [] t ht c hc with h1 | h1
        · cases h1
        · exact Or.inr (List.mem_cons_of_mem _ h1)
      · rw [if_neg he] at ht
        rcases List.mem_cons.mp ht with h1 | h1
        · subst h1
          exact Or.inl (List.mem_reverse.mp hc)
        · rcases ih [] t h1 c hc with h2 | h2
          · cases h2
          · exact Or.inr (List.mem_cons_of_mem _ h2)
    · rw [if_neg hsp] at ht
      rcases ih (x :: acc) t ht c hc with h1 | h1
      · rcases List.mem_cons.mp h1 with h2 | h2
        · subst h2
          exact Or.inr (List.mem_cons_self _ _)
        · exact Or.inl h2
      · exact Or.inr (List.mem_cons_of_mem _ h1)

theorem pySplitAux_token (t : List Char) :
    ∀ (cs acc : List Char), (∀ c ∈ t, isSpace c = false) →
      pySplitAux (t ++ cs) acc = pySplitAux cs (t.reverse ++ acc) := by
  induction t with
  | nil =>
    intro cs acc _
    simp
  | cons c t' ih =>
    intro cs acc h
    rw [List.cons_append]
    have hstep : pySplitAux (c :: (t' ++ cs)) acc = pySplitAux (t' ++ cs) (c :: acc) := by
      simp only [pySplitAux]
      rw [if_neg (by simp [h c (List.mem_cons_self _ _)])]
    rw [hstep, ih cs (c :: acc) (fun x hx => h x (List.mem_cons_of_mem _ hx))]
    congr 1
    simp

theorem pySplit_joinSpace (T : List (List Char))
    (h : ∀ t ∈ T, t ≠ [] ∧ ∀ c ∈ t, isSpace c = false) :
    pySplit (joinSpace T) = T := by
  induction T with
  | nil => rfl
  | cons t ts ih =>
    have ht := h t (List.mem_cons_self _ _)
    have hrevne : t.reverse ≠ [] := by
      intro hc
      apply ht.1
      simpa using hc
    cases ts with
    | nil =>
      show pySplitAux (joinSpace [t]) [] = [t]
      rw [show joinSpace [t] = t from rfl]
      have htok := pySplitAux_token t [] [] ht.2
      rw [List.append_nil] at htok
      rw [htok]
      unfold pySplitAux
      rw [if_neg (by simpa using hrevne)]
      simp
    | cons t2 ts2 =>
      show pySplitAux (joinSpace (t :: t2 :: ts2)) [] = t :: t2 :: ts2
      rw [show joinSpace (t :: t2 :: ts2) = t ++ ' ' :: joinSpace (t2 :: ts2) from rfl]
      rw [pySplitAux_token t _ [] ht.2]
      show pySplitAux (' ' :: joinSpace (t2 :: ts2)) (t.reverse ++ []) = _
      unfold pySplitAux
      rw [if_pos (by decide)]
      rw [if_neg (by simpa using hrevne)]
      rw [show pySplitAux (joinSpace (t2 :: ts2)) [] = t2 :: ts2 from
        ih (fun x hx => h x (List.mem_cons_of_mem _ hx))]
      simp

theorem normalize_tags_props (s : List Char) :
    (∀ t ∈ normalize_tags s, t ≠ [] ∧ ∀ c ∈ t,
      isSpace c = false ∧ c ≠ ',' ∧ pyLower c = c)
    ∧ (normalize_tags s).Nodup := by
  unfold normalize_tags
  by_cases hs : s = []
  · rw [if_pos hs]
    refine ⟨?_, List.nodup_nil⟩
    intro t ht
    cases ht
  · rw [if_neg hs]
    constructor
    · intro t ht
      have htM := pyDedupAux_subset _ [] t ht
      rw [List.mem_map] at htM
      obtain ⟨tok, htok, rfl⟩ := htM
      rw [List.mem_filter] at htok
      obtain ⟨htoksplit, htokne⟩ := htok
      have hprops := pySplitAux_nospace _ [] (by intro x hx; cases hx) tok htoksplit
      have hstrip : pyStrip tok = tok := pyStrip_eq_self tok hprops.2
      rw [hstrip]
      refine ⟨?_, ?_⟩
      · intro hc
        rw [List.map_eq_nil] at hc
        exact hprops.1 hc
      · intro c hc
        rw [List.mem_map] at hc
        obtain ⟨c0, hc0, rfl⟩ := hc
        have hc0space := hprops.2 c0 hc0
        have hc0mem : c0 ∈ s.map (fun c => if c = ',' then ' ' else c) := by
          rcases pySplitAux_mem _ [] tok htoksplit c0 hc0 with h1 | h1
          · cases h1
          · exact h1
        have hc0comma : c0 ≠ ',' := by
          rw [List.mem_map] at hc0mem
          obtain ⟨c1, _, hrepl⟩ := hc0mem
          by_cases h1 : c1 = ','
          · rw [if_pos h1] at hrepl
            rw [← hrepl] at hc0space
            simp [isSpace] at hc0space
          · rw [if_neg h1] at hrepl
            rw [← hrepl]
            exact h1
        exact ⟨pyLower_not_space c0 hc0space, pyLower_ne_comma c0 hc0comma,
          pyLower_idem c0⟩
    · exact (pyDedupAux_nodup _ []).1

theorem joinSpace_chars (T : List (List Char)) (c : Char) (hc : c ∈ joinSpace T) :
    (∃ t ∈ T, c ∈ t) ∨ c = ' ' := by
  induction T with
  | nil => cases hc
  | cons t ts ih =>
    cases ts with
    | nil => exact Or.inl ⟨t, List.mem_cons_self _ _, hc⟩
    | cons t2 ts2 =>
      rw [show joinSpace (t :: t2 :: ts2) = t ++ ' ' :: joinSpace (t2 :: ts2)
        from rfl] at hc
      rcases List.mem_append.mp hc with h1 | h1
      · exact Or.inl ⟨t, List.mem_cons_self _ _, h1⟩
      · rcases List.mem_cons.mp h1 with h2 | h2
        · exact Or.inr h2
        · rcases ih h2 with ⟨t3, ht3, hct3⟩ | h3
          · exact Or.inl ⟨t3, List.mem_cons_of_mem _ ht3, hct3⟩
          · exact Or.inr h3

theorem normalize_joinSpace (T : List (List Char)) (hne : T ≠ [])
    (hprops : ∀ t ∈ T, t ≠ [] ∧ ∀ c ∈ t, isSpace c = false ∧ c ≠ ',' ∧ pyLower c = c)
    (hnd : T.Nodup) :
    normalize_tags (joinSpace T) = T := by
  have hjoin_ne : joinSpace T ≠ [] := by
    cases T with
    | nil => exact absurd rfl hne
    | cons t ts =>
      cases ts with
      | nil => exact (hprops t (List.mem_cons_self _ _)).1
      | cons t2 ts2 =>
        rw [show joinSpace (t :: t2 :: ts2) = t ++ ' ' :: joinSpace (t2 :: ts2)
          from rfl]
        simp
  unfold normalize_tags
  rw [if_neg hjoin_ne]
  dsimp only
  have hclean : (joinSpace T).map (fun c => if c = ',' then ' ' else c) =
      joinSpace T := by
    apply map_eq_self_of_fix
    intro c hc
    rcases joinSpace_chars T c hc with ⟨t, ht, hct⟩ | h1
    · rw [if_neg ((hprops t ht).2 c hct).2.1]
    · rw [h1]
      rfl
  rw [hclean]
  rw [show pySplit (joinSpace T) = T from pySplit_joinSpace T
    (fun t ht => ⟨(hprops t ht).1, fun c hc => ((hprops t ht).2 c hc).1⟩)]
  have hfilt : T.filter (fun t => ¬ (pyStrip t).isEmpty) = T := by
    rw [List.filter_eq_self]
    intro t ht
    rw [pyStrip_eq_self t (fun c hc => ((hprops t ht).2 c hc).1)]
    simpa using (hprops t ht).1
  rw [hfilt]
  have hmaps : T.map (fun t => (pyStrip t).map pyLower) = T := by
    apply map_eq_self_of_fix
    intro t ht
    rw [pyStrip_eq_self t (fun c hc => ((hprops t ht).2 c hc).1)]
    exact map_eq_self_of_fix t (fun c hc => ((hprops t ht).2 c hc).2.2)
  rw [hmaps]
  exact pyDedupAux_eq_self T [] hnd (by intro x hx hc; cases hc)

/-- C3 counterexample: for the empty normalized tag sequence (the output of
`normalize` on `""`) and a text whose `Tags:` line has no trailing newline,
the round trip does not give back the empty sequence — the substitution
`^Tags:.*\n+` cannot remove a final `Tags:` line that no newline follows,
and extraction then still finds it. -/
theorem c3_counterexample :
    extract_tags (replace_tags "Tags: leftover".toList (normalize_tags "".toList)) ≠
      normalize_tags "".toList := by
  decide

/-- C3 amended: the tag round trip
`extractTags (replaceTagLine text T) = T` holds for every text and every
non-empty normalized tag sequence `T`; for the empty sequence it can fail
(for instance on a text ending in a `Tags:` line with no trailing newline,
or an indented `Tags:` line that left-stripping promotes to a line start). -/
theorem c3_tag_roundtrip (text s : List Char) (h : normalize_tags s ≠ []) :
    extract_tags (replace_tags text (normalize_tags s)) = normalize_tags s := by
  obtain ⟨hprops, hnd⟩ := normalize_tags_props s
  obtain ⟨t1, T', hT⟩ : ∃ t1 T', normalize_tags s = t1 :: T' := by
    cases hTc : normalize_tags s with
    | nil => exact absurd hTc h
    | cons a b => exact ⟨a, b, rfl⟩
  have ht1 := hprops t1 (by rw [hT]; exact List.mem_cons_self _ _)
  obtain ⟨c0, t1', hc0⟩ : ∃ c0 t1', t1 = c0 :: t1' := by
    cases ht1c : t1 with
    | nil => exact absurd ht1c ht1.1
    | cons a b => exact ⟨a, b, rfl⟩
  have hc0space : isSpace c0 = false :=
    (ht1.2 c0 (by rw [hc0]; exact List.mem_cons_self _ _)).1
  obtain ⟨Jrest, hJ⟩ : ∃ Jrest,
      joinSpace (normalize_tags s) = c0 :: Jrest := by
    rw [hT, hc0]
    cases T' with
    | nil => exact ⟨t1', rfl⟩
    | cons t2 ts2 => exact ⟨t1' ++ ' ' :: joinSpace (t2 :: ts2), rfl⟩
  have hJnl : ∀ c ∈ joinSpace (normalize_tags s), (c != '\n') = true := by
    intro c hc
    rcases joinSpace_chars _ c hc with ⟨t, ht, hct⟩ | h1
    · simpa using ne_nl_of_not_space c ((hprops t ht).2 c hct).1
    · rw [h1]
      decide
  have hout : replace_tags text (normalize_tags s) =
      'T' :: 'a' :: 'g' :: 's' :: ':' ::
        (' ' :: (joinSpace (normalize_tags s) ++
          '\n' :: '\n' :: pyLstrip (subTags text))) := by
    unfold replace_tags
    rw [if_neg h]
    simp [tagsKey, List.append_assoc]
  have hmatch : tagsRestMatch
      (' ' :: (joinSpace (normalize_tags s) ++
        '\n' :: '\n' :: pyLstrip (subTags text))) =
      some (joinSpace (normalize_tags s)) := by
    have hdw : (' ' :: (joinSpace (normalize_tags s) ++
        '\n' :: '\n' :: pyLstrip (subTags text))).dropWhile isSpace =
        joinSpace (normalize_tags s) ++ '\n' :: '\n' :: pyLstrip (subTags text) := by
      rw [List.dropWhile_cons, if_pos (by decide)]
      rw [hJ, List.cons_append, List.dropWhile_cons, if_neg (by simp [hc0space])]
    unfold tagsRestMatch
    dsimp only
    rw [hdw]
    rw [show (joinSpace (normalize_tags s) ++
        '\n' :: '\n' :: pyLstrip (subTags text)).isEmpty = false from by
      rw [hJ, List.cons_append]
      rfl]
    rw [if_neg (by simp)]
    rw [takeWhile_append_of_all _ _ hJnl]
    rw [List.takeWhile_cons, if_neg (by decide)]
    rw [List.append_nil]
  have hsearch : searchTagsAux true ('T' :: 'a' :: 'g' :: 's' :: ':' ::
      (' ' :: (joinSpace (normalize_tags s) ++
        '\n' :: '\n' :: pyLstrip (subTags text)))) =
      some (joinSpace (normalize_tags s)) := by
    simp only [searchTagsAux]
    rw [if_pos (by simp [tagsKey])]
    rw [show ('T' :: 'a' :: 'g' :: 's' :: ':' ::
      (' ' :: (joinSpace (normalize_tags s) ++
        '\n' :: '\n' :: pyLstrip (subTags text)))).drop 5 =
      ' ' :: (joinSpace (normalize_tags s) ++
        '\n' :: '\n' :: pyLstrip (subTags text)) from rfl]
    rw [hmatch]
  rw [hout]
  unfold extract_tags
  rw [hsearch]
  exact normalize_joinSpace _ (by rw [hT]; simp) hprops hnd

/-- Witness for C3 amended with a concrete non-empty tag sequence. -/
theorem c3_tag_roundtrip_witness :
    normalize_tags "Dinner, easy".toList ≠ [] ∧
    extract_tags (replace_tags "Tags: old\n\nbody".toList
        (normalize_tags "Dinner, easy".toList)) =
      normalize_tags "Dinner, easy".toList :=
  ⟨by decide,
    c3_tag_roundtrip "Tags: old\n\nbody".toList "Dinner, easy".toList (by decide)⟩

theorem char_beq_eq_decide (a b : Char) : (a == b) = decide (a = b) := by
  by_cases h : a = b <;> simp [h]

theorem dropWhile_head_false {p : Char → Bool} (l : List Char) (d : Char)
    (m : List Char) (h : l.dropWhile p = d :: m) : p d = false := by
  induction l with
  | nil => cases h
  | cons c rest ih =>
    rw [List.dropWhile_cons] at h
    by_cases hp : p c = true
    · rw [if_pos hp] at h
      exact ih h
    · rw [if_neg hp] at h
      injection h with h1 _
      subst h1
      simpa using hp

theorem subTagsM_sublist (cs : List Char) :
    ∀ mode, (subTagsM mode cs).Sublist cs := by
  induction cs with
  | nil =>
    intro mode
    cases mode <;> simp [subTagsM]
  | cons c rest ih =>
    intro mode
    cases mode with
    | scan atStart =>
      simp only [subTagsM]
      by_cases hcond : atStart ∧ (c :: rest).take 5 = tagsKey ∧
          ((c :: rest).drop 5).any (fun x => x == '\n') = true
      · rw [if_pos hcond]
        exact (ih .line).cons c
      · rw [if_neg hcond]
        exact (ih _).cons₂ c
    | line =>
      simp only [subTagsM]
      by_cases hc : c = '\n'
      · rw [if_pos hc]
        exact (ih .nl).cons c
      · rw [if_neg hc]
        exact (ih .line).cons c
    | nl =>
      simp only [subTagsM]
      by_cases hc : c = '\n'
      · rw [if_pos hc]
        exact (ih .nl).cons c
      · rw [if_neg hc]
        by_cases hcond : (c :: rest).take 5 = tagsKey ∧
            ((c :: rest).drop 5).any (fun x => x == '\n') = true
        · rw [if_pos hcond]
          exact (ih .line).cons c
        · rw [if_neg hcond]
          exact (ih _).cons₂ c

theorem subTagsM_scanFalse_copy (l : List Char) :
    subTagsM (.scan false) l =
      l.takeWhile (fun c => c != '\n') ++
        subTagsM (.scan false) (l.dropWhile (fun c => c != '\n')) := by
  induction l with
  | nil => rfl
  | cons c rest ih =>
    by_cases hc : c = '\n'
    · subst hc
      rw [List.takeWhile_cons, if_neg (by decide), List.dropWhile_cons,
        if_neg (by decide)]
      rfl
    · have hstep : subTagsM (.scan false) (c :: rest) =
          c :: subTagsM (.scan (decide (c = '\n'))) rest := by
        simp only [subTagsM]
        rw [if_neg (by simp)]
      rw [hstep, decide_eq_false hc]
      rw [List.takeWhile_cons, if_pos (by simp [hc]), List.dropWhile_cons,
        if_pos (by simp [hc])]
      rw [ih]
      rfl

theorem scanFalse_take_eq (rest w : List Char) (hw : '\n' ∉ w)
    (h : (subTagsM (.scan false) rest).take w.length = w) :
    rest.take w.length = w := by
  by_cases hlen : w.length ≤ (rest.takeWhile (fun c => c != '\n')).length
  · have h1 : (subTagsM (.scan false) rest).take w.length =
        (rest.takeWhile (fun c => c != '\n')).take w.length := by
      rw [subTagsM_scanFalse_copy]
      exact List.take_append_of_le_length hlen
    have h2 : rest.take w.length =
        (rest.takeWhile (fun c => c != '\n')).take w.length := by
      conv_lhs =>
        rw [← List.takeWhile_append_dropWhile (fun c => c != '\n') rest]
      exact List.take_append_of_le_length hlen
    rw [h2, ← h1, h]
  · push_neg at hlen
    exfalso
    cases hdw : rest.dropWhile (fun c => c != '\n') with
    | nil =>
      have hout : subTagsM (.scan false) rest =
          rest.takeWhile (fun c => c != '\n') := by
        rw [subTagsM_scanFalse_copy, hdw]
        simp [subTagsM]
      have hlen2 := congrArg List.length h
      rw [hout, List.length_take] at hlen2
      omega
    | cons d m =>
      have hd : d = '\n' := by
        have := dropWhile_head_false rest d m hdw
        simpa using this
      subst hd
      have hout : subTagsM (.scan false) rest =
          rest.takeWhile (fun c => c != '\n') ++
            '\n' :: subTagsM (.scan true) m := by
        rw [subTagsM_scanFalse_copy, hdw]
        congr 1
      have hmem : '\n' ∈ (subTagsM (.scan false) rest).take w.length := by
        rw [hout, List.take_append_eq_append_take]
        apply List.mem_append.mpr
        refine Or.inr ?_
        have hpos : 1 ≤ w.length - (rest.takeWhile (fun c => c != '\n')).length := by
          omega
      -- take k of ('\n' :: _) with k ≥ 1 starts with '\n'
        cases hk : w.length - (rest.takeWhile (fun c => c != '\n')).length with
        | zero => omega
        | succ k =>
          rw [List.take_succ_cons]
          exact List.mem_cons_self _ _
      rw [h] at hmem
      exact hw hmem

theorem head_no_match (c : Char) (rest : List Char)
    (hcond : ¬((c :: rest).take 5 = tagsKey ∧
      ((c :: rest).drop 5).any (fun x => x == '\n') = true)) :
    (((c :: subTagsM (.scan (decide (c = '\n'))) rest).take 5 == tagsKey) &&
      ((c :: subTagsM (.scan (decide (c = '\n'))) rest).drop 5).any
        (fun x => x == '\n')) = false := by
  by_cases hc : c = '\n'
  · subst hc
    have h1 : (('\n' :: subTagsM (.scan (decide ('\n' = '\n'))) rest).take 5 ==
        tagsKey) = false := by
      rw [beq_eq_false_iff_ne]
      intro hceq
      rw [List.take_succ_cons] at hceq
      injection hceq with h1 _
      exact absurd h1 (by decide)
    rw [h1, Bool.false_and]
  · rw [decide_eq_false hc]
    by_cases htk : (c :: rest).take 5 = tagsKey
    · have hany : ((c :: rest).drop 5).any (fun x => x == '\n') = false := by
        cases hh : ((c :: rest).drop 5).any (fun x => x == '\n') with
        | false => rfl
        | true => exact absurd ⟨htk, hh⟩ hcond
      have htk4 : rest.take 4 = ['a', 'g', 's', ':'] := by
        rw [List.take_succ_cons] at htk
        injection htk with _ h2
      have hrestnl : '\n' ∉ rest := by
        intro hmem
        rw [← List.take_append_drop 4 rest] at hmem
        rcases List.mem_append.mp hmem with h1 | h1
        · rw [htk4] at h1
          revert h1
          decide
        · have hdrop : ('\n' : Char) ∈ (c :: rest).drop 5 := by
            rw [List.drop_succ_cons]
            exact h1
          have hthis : ((c :: rest).drop 5).any (fun x => x == '\n') = true :=
            List.any_eq_true.mpr ⟨'\n', hdrop, by decide⟩
          rw [hthis] at hany
          cases hany
      have h2 : ((c :: subTagsM (.scan false) rest).drop 5).any
          (fun x => x == '\n') = false := by
        cases hx : ((c :: subTagsM (.scan false) rest).drop 5).any
            (fun x => x == '\n') with
        | false => rfl
        | true =>
          exfalso
          obtain ⟨x, hx1, hx2⟩ := List.any_eq_true.mp hx
          have hx3 : x ∈ c :: subTagsM (.scan false) rest :=
            (List.drop_sublist _ _).mem hx1
          rw [beq_iff_eq] at hx2
          subst hx2
          rcases List.mem_cons.mp hx3 with h1 | h1
          · exact hc h1.symm
          · exact hrestnl ((subTagsM_sublist rest _).mem h1)
      rw [h2, Bool.and_false]
    · have h1 : ((c :: subTagsM (.scan false) rest).take 5 == tagsKey) = false := by
        rw [beq_eq_false_iff_ne]
        intro hceq
        apply htk
        rw [List.take_succ_cons] at hceq
        rw [show tagsKey = 'T' :: ['a', 'g', 's', ':'] from rfl] at hceq
        have hcT : c = 'T' := by injection hceq
        have hc4 : (subTagsM (.scan false) rest).take 4 = ['a', 'g', 's', ':'] := by
          injection hceq with _ h
        have hc4' : (subTagsM (.scan false) rest).take
            (['a', 'g', 's', ':'] : List Char).length = ['a', 'g', 's', ':'] := hc4
        have h4 := scanFalse_take_eq rest ['a', 'g', 's', ':'] (by decide) hc4'
        have h4' : rest.take 4 = ['a', 'g', 's', ':'] := h4
        rw [List.take_succ_cons, hcT, h4']
        rfl
      rw [h1, Bool.false_and]

theorem containsMatch_subTagsM (cs : List Char) :
    (∀ b, containsMatch b (subTagsM (.scan b) cs) = false)
    ∧ containsMatch true (subTagsM .line cs) = false
    ∧ containsMatch true (subTagsM .nl cs) = false := by
  induction cs with
  | nil => exact ⟨fun b => rfl, rfl, rfl⟩
  | cons c rest ih =>
    obtain ⟨ihscan, ihline, ihnl⟩ := ih
    have hflag : ∀ out : List Char,
        containsMatch (c == '\n') out = containsMatch (decide (c = '\n')) out := by
      intro out
      rw [char_beq_eq_decide]
    refine ⟨?_, ?_, ?_⟩
    · intro b
      simp only [subTagsM]
      by_cases hcond : (b = true) ∧ (c :: rest).take 5 = tagsKey ∧
          ((c :: rest).drop 5).any (fun x => x == '\n') = true
      · rw [if_pos hcond]
        rw [hcond.1]
        exact ihline
      · rw [if_neg hcond]
        simp only [containsMatch]
        rw [Bool.or_eq_false_iff]
        constructor
        · cases hb : b with
          | false => rw [Bool.false_and, Bool.false_and]
          | true =>
            rw [Bool.true_and]
            exact head_no_match c rest
              (fun hcontra => hcond ⟨hb, hcontra.1, hcontra.2⟩)
        · rw [hflag]
          exact ihscan _
    · simp only [subTagsM]
      by_cases hc : c = '\n'
      · rw [if_pos hc]
        exact ihnl
      · rw [if_neg hc]
        exact ihline
    · simp only [subTagsM]
      by_cases hc : c = '\n'
      · rw [if_pos hc]
        exact ihnl
      · rw [if_neg hc]
        by_cases hcond : (c :: rest).take 5 = tagsKey ∧
            ((c :: rest).drop 5).any (fun x => x == '\n') = true
        · rw [if_pos hcond]
          exact ihline
        · rw [if_neg hcond]
          simp only [containsMatch]
          rw [Bool.or_eq_false_iff]
          constructor
          · rw [Bool.true_and]
            exact head_no_match c rest hcond
          · rw [hflag]
            exact ihscan _

/-- C7 counterexample: the claim says a second line-start `Tags:` line later
in the body is left in the result; but the substitution removes every
newline-terminated `Tags:` line, so `Tags: b` is gone. -/
theorem c7_counterexample :
    replace_tags "Tags: a\nmid\nTags: b\nend".toList [] = "mid\nend".toList
    ∧ replace_tags "Tags: a\nmid\nTags: b\nend".toList []
        ≠ "mid\nTags: b\nend".toList :=
  ⟨by decide, by decide⟩

/-- C7 amended: `replace_tags`'s removal pass deletes every line-start
`Tags:` line that a newline terminates (together with the following blank
lines), not only the first one: afterwards no position remains at which the
pattern `^Tags:.*\n+` could still match.  (Only a final `Tags:` line with no
trailing newline is kept.) -/
theorem c7_sub_removes_all (text : List Char) :
    containsMatch true (subTags text) = false :=
  (containsMatch_subTagsM text).1 true
